import Mathlib

set_option maxRecDepth 3000
set_option maxHeartbeats 2000000

/-!
Shallow embedding of the FDS drive-emulator core
(`src/FdsKey/Core/Src/fdsemu.c`) and proofs about it.

Machine integers are modelled as `Nat` with explicit `% 2 ^ w` where the C
code truncates (the `uint16_t` return value of `fds_get_block_size`, the
CRC register).  The raw side buffer `fds_raw_data` and the block-offset
table `fds_block_offsets` are modelled as functions `Nat → Nat` with
pointwise update; a disk file is a `List Nat` of byte values.  The
hardware-facing calls (DMA registration, timers, GPIO writes other than the
READY line) have no observable effect on the data model and are not
modelled; the READY output line is kept because the rewind logic drives it.
-/

namespace Fdsemu

/-- Pointwise update of a byte store, modelling a single array write
`a[i] = v` in the C source. -/
def upd (f : Nat → Nat) (i v : Nat) : Nat → Nat :=
  fun j => if j = i then v else f j

/-- Read byte `i` of a file modelled as a list of bytes; positions past the
end read as 0 (the loader never uses such bytes: a short `f_read` is
detected through the returned byte count). -/
def rd (F : List Nat) (i : Nat) : Nat := F.getD i 0

/-- The bytes at `[a, a + len)` of a byte store, as a list. -/
def extractRaw (raw : Nat → Nat) (a len : Nat) : List Nat :=
  (List.range len).map fun t => raw (a + t)

/-- The bytes at `[p, p + len)` of a file. -/
def extractSeg (F : List Nat) (p len : Nat) : List Nat :=
  (List.range len).map fun t => rd F (p + t)

/-- Overwrite file `F` from position `p` with the bytes `bs`, extending the
file when the write reaches past its end (`f_write` semantics). -/
def writeAt (F : List Nat) (p : Nat) (bs : List Nat) : List Nat :=
  (List.range (max F.length (p + bs.length))).map fun k =>
    if p ≤ k ∧ k < p + bs.length then rd bs (k - p) else rd F k

/-- `count` successive zero writes starting at `start`: the plain
gap-laying `for` loop of `fds_reset_writing`. -/
def writeZeros : (Nat → Nat) → Nat → Nat → (Nat → Nat)
  | raw, _, 0 => raw
  | raw, start, c + 1 => writeZeros (upd raw start 0) (start + 1) c

/-- `memcpy` of `n` file bytes starting at file position `pos` into the
byte store at destination `dst`: the effect of a successful
`f_read(&fp, raw + dst, n, &br)`. -/
def readInto (F : List Nat) (pos : Nat) (raw : Nat → Nat) (dst n : Nat) :
    Nat → Nat :=
  fun k => if dst ≤ k ∧ k < dst + n then rd F (pos + (k - dst)) else raw k

/-- Modelled from the spec: the compile-time constants of the missing
header `fdsemu.h` (`FDS_MAX_SIDE_SIZE`, the gap lengths, thresholds and
timing constants).  Their numeric values are not in `src/`, so the whole
development is parameterised over them; the spec only fixes
`ROM_SIDE_SIZE = 65500` and the 16-byte header, which stay parameters here
and are pinned by hypotheses where a claim needs them. -/
structure FdsParams where
  maxSideSize : Nat
  firstGapReadBits : Nat
  nextGapsReadBits : Nat
  notReadyBytes : Nat
  threshold1 : Nat
  threshold2 : Nat
  multiWriteUnlicensedBits : Nat
  writeGapSkipBits : Nat
  readImpulseLength : Nat
  romSideSize : Nat
  romHeaderSize : Nat

/-- Rewind speed setting (`fdskey_settings.rewind_speed`). -/
inductive RewindSpeed where
  | original
  | turbo
deriving DecidableEq

/-- Save strategy setting (`fdskey_settings.backup_original`). -/
inductive SaveStrategy where
  | inPlace
  | rewriteBackup
  | everdrive
deriving DecidableEq

/-- The settings the core reads (`fdskey_settings`). -/
structure FdsSettings where
  rewindSpeed : RewindSpeed
  backupOriginal : SaveStrategy

/-- The drive state machine states (`FDS_STATE`). -/
inductive FDS_STATE where
  | off
  | idle
  | savePending
  | readWaitReadyTimer
  | readWaitReady
  | reading
  | writingGap
  | writing
  | writingStopping
deriving DecidableEq

/-- Results returned by the codec (`FRESULT` plus the `FDSR_*` codes).
Storage errors cannot occur against the ideal storage model, so only the
codes the model can produce are listed. -/
inductive FR where
  | ok
  | invalidRom
  | romTooLarge
  | readOnly
  | wrongCrc
deriving DecidableEq

/-- The module state: every `static volatile` variable of `fdsemu.c` that
the data model can observe, plus the READY output-line level
(`true` = GPIO_PIN_SET = NOT-READY, the line is active low). -/
structure Fds where
  raw : Nat → Nat
  usedSpace : Nat
  blockCount : Nat
  blockOffsets : Nat → Nat
  state : FDS_STATE
  clock : Nat
  currentByte : Nat
  currentBit : Nat
  lastValue : Nat
  notReadyTime : Nat
  writeCarrier : Nat
  lastWriteImpulse : Nat
  currentBlockEnd : Nat
  writeGapSkip : Nat
  changed : Bool
  lastActionTime : Nat
  readonly : Bool
  readyPin : Bool
  side : Nat

/-- A fully-zeroed module state, used to build concrete states. -/
def baseSt : Fds where
  raw := fun _ => 0
  usedSpace := 0
  blockCount := 0
  blockOffsets := fun _ => 0
  state := .off
  clock := 0
  currentByte := 0
  currentBit := 0
  lastValue := 0
  notReadyTime := 0
  writeCarrier := 0
  lastWriteImpulse := 0
  currentBlockEnd := 0
  writeGapSkip := 0
  changed := false
  lastActionTime := 0
  readonly := false
  readyPin := true
  side := 0

/-- One bit of the CRC shift register update: the body of the inner loop of
`fds_crc` (lines 61-68 of the source). -/
def crcBitUpd (byte : Nat) (sum : Nat) (bitIndex : Nat) : Nat :=
  let bit := (byte >>> bitIndex) &&& 1
  let carry := sum &&& 1
  let sum1 := (sum >>> 1) ||| (bit <<< 15)
  if carry ≠ 0 then sum1 ^^^ 0x8408 else sum1

/-- `fds_crc`: the FDS block CRC.  The outer loop runs over
`byte_index < size + 2`, reading `data[byte_index]` while in range and `0x00`
for the two appended positions; the inner loop consumes the 8 bits
LSB-first. -/
def fds_crc (data : List Nat) : Nat :=
  (List.range (data.length + 2)).foldl
    (fun sum byteIndex =>
      let byte := if byteIndex < data.length then rd data byteIndex else 0
      (List.range 8).foldl (crcBitUpd byte) sum)
    0x8000

/-- The CRC unit as claim C4 words it: starting from `0x8000`, fold the
LSB-first bit stream of `data ++ [0, 0]` through the shift-register step. -/
def fds_crc_spec (data : List Nat) : Nat :=
  ((data ++ [0, 0]).flatMap fun byte =>
      (List.range 8).map fun bitIndex => (byte >>> bitIndex) &&& 1).foldl
    (fun sum bit =>
      let carry := sum &&& 1
      let sum1 := (sum >>> 1) ||| (bit <<< 15)
      if carry ≠ 0 then sum1 ^^^ 0x8408 else sum1)
    0x8000

/-- The gap length in bytes in front of block `i`
(`FDS_FIRST_GAP_READ_BITS / 8` for block 0, `FDS_NEXT_GAPS_READ_BITS / 8`
after). -/
def gapBytesFor (P : FdsParams) (i : Nat) : Nat :=
  if i = 0 then P.firstGapReadBits / 8 else P.nextGapsReadBits / 8

/-- The payload size of block `i` per the source branches of
`fds_get_block_size`: 56 / 2 / 16, or `1 +` the 16-bit little-endian value
at offsets `0x0D..0x0E` of the preceding file-header block's payload. -/
def payloadSizeOf (P : FdsParams) (raw : Nat → Nat) (offs : Nat → Nat)
    (i : Nat) : Nat :=
  if i = 0 then 56
  else if i = 1 then 2
  else if i % 2 = 0 then 16
  else 1 + (raw (offs (i - 1) + P.nextGapsReadBits / 8 + 0x0D) |||
            (raw (offs (i - 1) + P.nextGapsReadBits / 8 + 0x0E) <<< 8))

/-- `fds_get_block_size`: the source function returns `uint16_t`, so the
total is truncated modulo `2 ^ 16`. -/
def fds_get_block_size (P : FdsParams) (raw : Nat → Nat) (offs : Nat → Nat)
    (i : Nat) (includeGap includeCrc : Bool) : Nat :=
  ((if includeGap then gapBytesFor P i else 0) + payloadSizeOf P raw offs i +
      (if includeCrc then 2 else 0)) % 65536

/-- The spec's `block_total_size(i, true, true)` as section 4.2 words it:
plain gap + payload + CRC arithmetic, no machine truncation.  This is the
second, spec-side definition used by the refinement-style claims C3. -/
def blockTotalSizeSpec (P : FdsParams) (raw : Nat → Nat) (offs : Nat → Nat)
    (i : Nat) : Nat :=
  gapBytesFor P i + payloadSizeOf P raw offs i + 2

/-- Sum of `blockTotalSizeSpec` over blocks `0 .. n-1`. -/
def offsSum (P : FdsParams) (raw : Nat → Nat) (offs : Nat → Nat) :
    Nat → Nat
  | 0 => 0
  | n + 1 => offsSum P raw offs n + blockTotalSizeSpec P raw offs n

/-- Sum of payload sizes over blocks `0 .. n-1` (the number of file bytes
the loader consumes for those blocks, and the number the saver writes
back). -/
def payloadSum (P : FdsParams) (raw : Nat → Nat) (offs : Nat → Nat) :
    Nat → Nat
  | 0 => 0
  | n + 1 => payloadSum P raw offs n + payloadSizeOf P raw offs n

/-- `fds_reset_reading`: clears the carrier clock, the bit cursor and the
last line level; in turbo rewind mode it also rewinds the byte cursor. -/
def fds_reset_reading (S : FdsSettings) (st : Fds) : Fds :=
  { st with
    clock := 0
    currentByte := if S.rewindSpeed = .turbo then 0 else st.currentByte
    currentBit := 0
    lastValue := 0 }

/-- `fds_stop`: full drive stop.  The DMA/PWM shutdown has no data-model
effect; the READY line is released (set = NOT-READY) and the FSM parks in
IDLE. -/
def fds_stop (st : Fds) : Fds :=
  { st with readyPin := true, state := .idle }

/-- One iteration of the `while (length)` body of
`fds_dma_fill_read_buffer`: produces the slot value for the current phase
and the successor state (lines 101-126 of the source). -/
def fillStep (P : FdsParams) (S : FdsSettings) (now : Nat) (st : Fds) :
    Fds × Nat :=
  let clock := st.clock ^^^ 1
  let bit := (st.raw st.currentByte >>> (st.currentBit / 2)) &&& 1
  let value := bit ^^^ clock
  let slot := if value ≠ 0 ∧ st.lastValue = 0 then P.readImpulseLength - 1
              else 0
  let st1 := { st with clock := clock, lastValue := value,
                       currentBit := st.currentBit + 1 }
  if st1.currentBit > 15 then
    let st2 := { st1 with currentBit := 0,
                          currentByte := (st.currentByte + 1) % P.maxSideSize }
    if st2.currentByte = 0 ∨
        (S.rewindSpeed = .turbo ∧
          st2.currentByte > st.usedSpace + P.notReadyBytes) then
      let st3 := { st2 with readyPin := true, notReadyTime := now,
                            state := .readWaitReadyTimer }
      (fds_reset_reading S st3, slot)
    else
      (st2, slot)
  else
    (st1, slot)

/-- The slot-filling loop of `fds_dma_fill_read_buffer`, after the FSM
guard has passed. -/
def fillLoop (P : FdsParams) (S : FdsSettings) (now : Nat) :
    Fds → List Nat → Nat → Nat → Fds × List Nat
  | st, buf, _, 0 => (st, buf)
  | st, buf, pos, len + 1 =>
    let r := fillStep P S now st
    fillLoop P S now r.1 (buf.set pos r.2) (pos + 1) len

/-- `fds_dma_fill_read_buffer`: a no-op unless the FSM is READING or
READ_WAIT_READY, otherwise fills `len` slots starting at `pos`. -/
def fds_dma_fill_read_buffer (P : FdsParams) (S : FdsSettings) (now : Nat)
    (st : Fds) (buf : List Nat) (pos len : Nat) : Fds × List Nat :=
  match st.state with
  | .reading => fillLoop P S now st buf pos len
  | .readWaitReady => fillLoop P S now st buf pos len
  | _ => (st, buf)

/-- The block-walk loop at the top of `fds_reset_writing`: find the block
whose byte range contains `current_byte`, or append a fresh block record
when the cursor sits past the last block.  `count` is the number of
existing blocks left to inspect (`block_count - i`), making the `for (;;)`
loop structural. -/
def findCurrentBlock (P : FdsParams) (st : Fds) : Nat → Nat → Fds × Nat
  | i, 0 =>
    let off := if i = 0 then 0
               else st.blockOffsets (i - 1) +
                    fds_get_block_size P st.raw st.blockOffsets (i - 1)
                      true true
    ({ st with blockOffsets := upd st.blockOffsets i off,
               blockCount := st.blockCount + 1 }, i)
  | i, c + 1 =>
    if st.currentByte <
        st.blockOffsets i +
          fds_get_block_size P st.raw st.blockOffsets i true true then
      (st, i)
    else
      findCurrentBlock P st (i + 1) c

/-- The gap re-laying epilogue of `fds_reset_writing` (the final `for`
loop and terminator write): lay `gap - 1` zero bytes and the `0x80`
terminator in front of the current block, park the cursor after them and
mark the image changed. -/
def resetGapLay (P : FdsParams) (st6 : Fds) (gap : Nat) : Fds :=
  let raw7 := writeZeros st6.raw st6.currentByte (gap - 1)
  let raw8 := upd raw7 (st6.currentByte + (gap - 1)) 0x80
  { st6 with raw := raw8, currentByte := st6.currentByte + (gap - 1) + 1,
             writeGapSkip := 0, changed := true }

/-- The tail of `fds_reset_writing` once the current block index and the
recomputed `used_space` are settled: position the cursor at the block
start, compute `current_block_end`, release the drive when the block end
wrapped below the block start ("this should not happen"), truncate the
block table if the next block is disaligned, and re-lay the leading
gap. -/
def fds_reset_writing_tail (P : FdsParams) (st3 : Fds) (cur : Nat) : Fds :=
  let st4 := { st3 with currentByte := st3.blockOffsets cur }
  let gap := if cur = 0 then P.firstGapReadBits / 8
             else P.nextGapsReadBits / 8
  let bend := (st4.currentByte + gap +
               fds_get_block_size P st4.raw st4.blockOffsets cur false true) %
              P.maxSideSize
  let st5 := { st4 with currentBlockEnd := bend }
  if bend < st5.currentByte then
    { st5 with readyPin := true }
  else
    let st6 := if cur + 1 < st5.blockCount ∧
                  bend ≠ st5.blockOffsets (cur + 1) then
                 { st5 with
                   blockCount := cur + 1
                   raw := fun k =>
                     if st5.blockOffsets (cur + 1) ≤ k ∧ k < P.maxSideSize
                     then 0 else st5.raw k }
               else st5
    resetGapLay P st6 gap

/-- `fds_reset_writing`: recompute the current block from `current_byte`
(appending a record if past the end), recompute `used_space` (dropping the
appended block and fully stopping on overflow — note the source does not
restore `used_space` in that branch), then run the cursor/gap tail. -/
def fds_reset_writing (P : FdsParams) (st0 : Fds) : Fds :=
  let w := findCurrentBlock P st0 0 st0.blockCount
  let st1 := w.1
  let cur := w.2
  let used := st1.blockOffsets (st1.blockCount - 1) +
              fds_get_block_size P st1.raw st1.blockOffsets
                (st1.blockCount - 1) true true
  let st2 := { st1 with usedSpace := used }
  let st3 := if used > P.maxSideSize then
               fds_stop { st2 with blockCount := st2.blockCount - 1 }
             else st2
  fds_reset_writing_tail P st3 cur

/-- `fds_write_bit`: shift the written bit into the MSB of the current
byte; on completing a byte, advance the cursor and, on crossing the block
end, finalise per the SCAN_MEDIA / WRITE line levels (`scanMediaPin` and
`writePin` are the raw GPIO levels; low (`false`) means motor on /
host writing).  `fds_start_reading`'s DMA priming is not observable in the
data model; its cursor/FSM effects are kept. -/
def fds_write_bit (P : FdsParams) (scanMediaPin writePin : Bool) (st : Fds)
    (bit : Nat) : Fds :=
  let raw1 := upd st.raw st.currentByte
      ((st.raw st.currentByte >>> 1) ||| (bit <<< 7))
  let st1 := { st with raw := raw1, currentBit := st.currentBit + 1 }
  if st1.currentBit > 7 then
    let st2 := { st1 with currentBit := 0,
                          currentByte := (st1.currentByte + 1) % P.maxSideSize }
    if st2.currentByte ≥ st2.currentBlockEnd then
      if ¬scanMediaPin then
        let st3 := { st2 with state := .writingStopping }
        if writePin then
          { st3 with currentBit := 0, state := .reading }
        else
          { st3 with writeGapSkip := 0, state := .writingStopping }
      else
        fds_stop st2
    else
      st2
  else
    st1

/-- `fds_write_impulse`: decode one pulse interval.  In WRITING_GAP the
ramp is swallowed and the start bit awaited; in WRITING the pulse band and
carrier form the dispatch key of the demodulation table; in
WRITING_STOPPING consecutive short pulses are counted towards the
unlicensed multi-block-write pattern; any other state aborts the write
path (`fds_stop_writing` only touches DMA/timers, so the module state is
unchanged). -/
def fds_write_impulse (P : FdsParams) (scanMediaPin writePin : Bool)
    (st : Fds) (pulse : Nat) : Fds :=
  match st.state with
  | .writingStopping =>
    let skip := if pulse < P.threshold1 then st.writeGapSkip + 1 else 0
    let st1 := { st with writeGapSkip := skip }
    if skip ≥ P.multiWriteUnlicensedBits then fds_reset_writing P st1
    else st1
  | .writingGap =>
    if st.writeGapSkip < P.writeGapSkipBits then
      { st with writeGapSkip := st.writeGapSkip + 1 }
    else if pulse ≥ P.threshold1 then
      { st with writeCarrier := 0, currentBit := 0, state := .writing }
    else
      st
  | .writing =>
    let l := st.writeCarrier |||
             (if pulse < P.threshold1 then 2
              else if pulse < P.threshold2 then 3 else 4)
    if l = 0x82 then
      { fds_write_bit P scanMediaPin writePin st 0 with writeCarrier := 0x80 }
    else if l = 0x83 then
      { fds_write_bit P scanMediaPin writePin st 1 with writeCarrier := 0 }
    else if l = 0x02 then
      { fds_write_bit P scanMediaPin writePin st 1 with writeCarrier := 0 }
    else if l = 0x03 then
      { fds_write_bit P scanMediaPin writePin
          (fds_write_bit P scanMediaPin writePin st 0) 0 with
        writeCarrier := 0x80 }
    else if l = 0x04 then
      { fds_write_bit P scanMediaPin writePin
          (fds_write_bit P scanMediaPin writePin st 0) 1 with
        writeCarrier := 0 }
    else
      st
  | _ => st

/-- The `"*NINTENDO-HVC*"` signature bytes checked at payload offsets
1..14 of the disk-info block. -/
def hvcSignature : List Nat :=
  [0x2A, 0x4E, 0x49, 0x4E, 0x54, 0x45, 0x4E, 0x44, 0x4F,
   0x2D, 0x48, 0x56, 0x43, 0x2A]

/-- The signature comparison of `fds_load_side` (memcpy of 14 bytes then
`strcmp` against the signature, which has no interior NUL, so equality of
the 14 bytes is the test). -/
def signatureOk (raw : Nat → Nat) (a : Nat) : Bool :=
  (List.range 14).all fun t => raw (a + 1 + t) = hvcSignature.getD t 0

/-- Why the load loop stopped (or failed): the gap would overflow the side
buffer, the payload + CRC would overflow, the file ended early, the
block-kind tag mismatched, the disk-info signature failed, or the file
size was not a multiple of `ROM_SIDE_SIZE` (possibly plus 16). -/
inductive StopReason where
  | gapOverflow
  | blockOverflow
  | fileEnd
  | kindMismatch
  | badSignature
  | badSize
deriving DecidableEq

/-- The gap-laying loop of `fds_load_side` (lines 592-607), including the
source's in-loop size check (which rolls `used_space` back by the loop
index and breaks).  Returns the store, the cursor, and `some i` when the
in-loop check fired at index `i` (`none` on normal completion). -/
def gapZeroLoop (P : FdsParams) : (Nat → Nat) → Nat → Nat → Nat →
    (Nat → Nat) × Nat × Option Nat
  | raw, used, _, 0 => (raw, used, none)
  | raw, used, i, c + 1 =>
    let raw1 := upd raw used 0
    let used1 := used + 1
    if used1 - 1 ≥ P.maxSideSize then (raw1, used1, some i)
    else gapZeroLoop P raw1 used1 (i + 1) c

/-- The per-iteration remainder of the load loop after the gap zeros are
laid (lines 608-691): terminator byte, block-kind tag, size check, file
read, tag and signature verification, CRC append.  `next` is the recursive
call into the loop with one unit of fuel consumed. -/
def loadIterRest (P : FdsParams) (F : List Nat)
    (next : Fds → Nat → Nat → Option (FR × Fds × Nat × StopReason))
    (st : Fds) (gap : Nat) (raw2 : Nat → Nat) (used2 : Nat)
    (pos minB : Nat) : Option (FR × Fds × Nat × StopReason) :=
  let raw3 := upd raw2 used2 0x80
  let used3 := used2 + 1
  let blockType : Nat :=
    if st.blockCount = 0 then 1
    else if st.blockCount = 1 then 2
    else if st.blockCount % 2 = 0 then 3
    else 4
  let blockSize := fds_get_block_size P raw3 st.blockOffsets st.blockCount
      false false
  if used3 + blockSize + 2 > P.maxSideSize then
    if st.blockCount + 1 < minB then
      some (.romTooLarge, { st with raw := raw3, usedSpace := used3 },
            minB, .blockOverflow)
    else
      some (.ok, { st with raw := upd raw3 (used3 - 1) 0,
                           usedSpace := used3 - gap },
            minB, .blockOverflow)
  else
    let br := min blockSize (F.length - pos)
    let raw4 := readInto F pos raw3 used3 br
    let pos1 := pos + br
    if br ≠ blockSize then
      if st.blockCount + 1 < minB then
        some (.invalidRom, { st with raw := raw4, usedSpace := used3 },
              minB, .fileEnd)
      else
        some (.ok, { st with raw := upd raw4 (used3 - 1) 0,
                             usedSpace := used3 - gap },
              minB, .fileEnd)
    else if raw4 used3 ≠ blockType then
      if st.blockCount + 1 < minB then
        some (.invalidRom, { st with raw := raw4, usedSpace := used3 },
              minB, .kindMismatch)
      else
        some (.ok, { st with raw := upd raw4 (used3 - 1) 0,
                             usedSpace := used3 - gap },
              minB, .kindMismatch)
    else if st.blockCount = 0 ∧ ¬signatureOk raw4 used3 then
      some (.invalidRom, { st with raw := raw4, usedSpace := used3 },
            minB, .badSignature)
    else
      let crc := fds_crc (extractRaw raw4 used3 blockSize)
      let used5 := used3 + blockSize
      let raw5 := upd raw4 used5 (crc &&& 0xFF)
      let raw6 := upd raw5 (used5 + 1) ((crc >>> 8) &&& 0xFF)
      next { st with raw := raw6, usedSpace := used5 + 2,
                     blockCount := st.blockCount + 1 }
        pos1 minB

/-- The `while (1)` block-reading loop of `fds_load_side` (lines 574-692),
fuel-indexed.  Each continuing iteration grows `used_space` by at least 3
and the guards keep it at most `maxSideSize`, so `maxSideSize + 2` fuel is
always enough; `none` is fuel exhaustion and never occurs at that bound. -/
def loadLoop (P : FdsParams) (F : List Nat) :
    Nat → Fds → Nat → Nat → Option (FR × Fds × Nat × StopReason)
  | 0, _, _, _ => none
  | fuel + 1, st, pos, minB0 =>
    let minB := if st.blockCount = 2 then
        st.raw (st.blockOffsets 1 + P.nextGapsReadBits / 8 + 1) * 2 + 2
      else minB0
    let st1 := { st with
                 blockOffsets := upd st.blockOffsets st.blockCount
                   st.usedSpace }
    let gap := gapBytesFor P st.blockCount
    if st1.usedSpace + gap > P.maxSideSize then
      if st1.blockCount + 1 < minB then
        some (.romTooLarge, st1, minB, .gapOverflow)
      else
        some (.ok, st1, minB, .gapOverflow)
    else
      let g := gapZeroLoop P st1.raw st1.usedSpace 0 (gap - 1)
      match g.2.2 with
      | some i =>
        if st1.blockCount + 1 < minB then
          some (.romTooLarge,
                { st1 with raw := g.1, usedSpace := g.2.1 }, minB,
                .gapOverflow)
        else
          loadIterRest P F (loadLoop P F fuel) st1 gap g.1 (g.2.1 - i)
            pos minB
      | none =>
        loadIterRest P F (loadLoop P F fuel) st1 gap g.1 g.2.1 pos minB

/-- `fds_load_side` for the non-everdrive source path (the everdrive
redirect only picks a different source file; the claims fix the IN_PLACE
strategy).  Checks the file-size shape, seeks to the side (FatFs clamps a
read-mode seek at the file size), zeroes the buffer and runs the block
loop.  The beginning-of-load pin writes and the final FSM/`check_pins`
step touch only hardware lines and the FSM field and are not needed by any
claim; the returned state fixes them to the IDLE defaults. -/
def fds_load_side (P : FdsParams) (F : List Nat) (side : Nat) (ro : Bool) :
    Option (FR × Fds × Nat × StopReason) :=
  if F.length % P.romSideSize ≠ 0 ∧ F.length % P.romSideSize ≠ 16 then
    some (.invalidRom, { baseSt with readonly := ro, side := side }, 0,
          .badSize)
  else
    let p0 := (if F.length % P.romSideSize = P.romHeaderSize
               then P.romHeaderSize else 0) + side * P.romSideSize
    let st0 : Fds := { baseSt with
                       state := .idle
                       readonly := ro
                       side := side }
    loadLoop P F (P.maxSideSize + 2) st0 (min p0 F.length) 0

/-- The `fds_get_block_size(i, 0, 0)` payload bytes of block `i`, read from
the image buffer starting at `block_offsets[i] + gap_bytes_for(i)`. -/
def blockPayloadBytes (P : FdsParams) (raw offs : Nat → Nat) (i : Nat) :
    List Nat :=
  extractRaw raw (offs i + gapBytesFor P i)
    (fds_get_block_size P raw offs i false false)

/-- The two trailing CRC bytes of block `i` in the image buffer, read
little-endian (`*crc | (*(crc + 1) << 8)` in the source). -/
def storedCrcAt (P : FdsParams) (raw offs : Nat → Nat) (i : Nat) : Nat :=
  raw (offs i + gapBytesFor P i +
       fds_get_block_size P raw offs i false false) |||
  (raw (offs i + gapBytesFor P i +
        fds_get_block_size P raw offs i false false + 1) <<< 8)

/-- The pre-save CRC verification loop of `fds_save` (lines 724-731):
recompute each block's CRC over its payload and compare against the two
stored trailing bytes, little-endian.  `i` is the next block to check and
`c` the number of blocks left. -/
def crcCheckLoop (P : FdsParams) (raw : Nat → Nat) (offs : Nat → Nat) :
    Nat → Nat → Bool
  | _, 0 => true
  | i, c + 1 =>
    if fds_crc (blockPayloadBytes P raw offs i) ≠ storedCrcAt P raw offs i
    then false
    else crcCheckLoop P raw offs (i + 1) c

/-- The block-writing loop of `fds_save` (lines 877-890): sequential
`f_write`s of each block's bytes, starting at file position `p`. -/
def saveWriteLoop (P : FdsParams) (raw : Nat → Nat) (offs : Nat → Nat) :
    List Nat → Nat → Nat → Nat → List Nat
  | F, _, _, 0 => F
  | F, p, i, c + 1 =>
    let bs := extractRaw raw (offs i + gapBytesFor P i)
        (fds_get_block_size P raw offs i false false)
    saveWriteLoop P raw offs (writeAt F p bs) (p + bs.length) (i + 1) c

/-- `fds_save` for the IN_PLACE strategy (the backup/everdrive strategies
differ only in destination resolution and a preliminary verbatim copy):
return OK untouched when nothing changed, refuse read-only media, verify
every stored CRC before any file operation, then seek to
`fsize % ROM_SIDE_SIZE + side * ROM_SIDE_SIZE` and write every block's
bytes back.  On success the dirty flag is cleared.  (`check_pins` at the
end only re-reads GPIO lines and is not modelled.) -/
def fds_save (P : FdsParams) (st : Fds) (F : List Nat) :
    FR × Fds × List Nat :=
  if ¬st.changed then (.ok, st, F)
  else if st.readonly then (.readOnly, st, F)
  else if ¬crcCheckLoop P st.raw st.blockOffsets 0 st.blockCount then
    (.wrongCrc, st, F)
  else
    let headerOffset := F.length % P.romSideSize
    let p := headerOffset + st.side * P.romSideSize
    (.ok, { st with changed := false },
     saveWriteLoop P st.raw st.blockOffsets F p 0 st.blockCount)

/-- The concatenated bytes `fds_save` writes for a state: for each block,
the `fds_get_block_size(i, 0, 0)` bytes starting at
`block_offsets[i] + gap_bytes_for(i)`. -/
def savedStream (P : FdsParams) (st : Fds) : List Nat :=
  (List.range st.blockCount).flatMap fun i =>
    extractRaw st.raw (st.blockOffsets i + gapBytesFor P i)
      (fds_get_block_size P st.raw st.blockOffsets i false false)

/-- The rewind condition of the read engine at a state: completing this
phase advances the byte cursor, and the advanced cursor either wrapped to
0 or (in turbo mode) ran past `used_space + NOT_READY_BYTES`. -/
def rewindTrigger (P : FdsParams) (S : FdsSettings) (st : Fds) : Prop :=
  st.currentBit + 1 > 15 ∧
  ((st.currentByte + 1) % P.maxSideSize = 0 ∨
   (S.rewindSpeed = .turbo ∧
    (st.currentByte + 1) % P.maxSideSize > st.usedSpace + P.notReadyBytes))

instance (P : FdsParams) (S : FdsSettings) (st : Fds) :
    Decidable (rewindTrigger P S st) := by
  unfold rewindTrigger
  infer_instance

/-- Sum of the `fds_get_block_size(·, 0, 0)` payload sizes of the `t`
blocks `i, i + 1, ..., i + t - 1`: the file distance between the start of
block `i`'s bytes and the start of block `i + t`'s bytes in the saved
stream. -/
def codePayloadSumFrom (P : FdsParams) (raw offs : Nat → Nat) (i : Nat) :
    Nat → Nat
  | 0 => 0
  | t + 1 => codePayloadSumFrom P raw offs i t +
             fds_get_block_size P raw offs (i + t) false false

/-! Concrete fixtures used by witnesses and counterexamples.  `Pc` is a
small but fully concrete parameter valuation (2-byte gaps, a 200-byte side
buffer, a 100-byte side stride) so that every witness evaluates quickly by
kernel reduction; nothing in the theorems depends on these numbers. -/

/-- Concrete parameters for witnesses. -/
def Pc : FdsParams where
  maxSideSize := 200
  firstGapReadBits := 16
  nextGapsReadBits := 16
  notReadyBytes := 4
  threshold1 := 10
  threshold2 := 15
  multiWriteUnlicensedBits := 4
  writeGapSkipBits := 3
  readImpulseLength := 3
  romSideSize := 100
  romHeaderSize := 16

/-- `Pc` with a 70-byte side buffer, for the reset-writing overflow
counterexample. -/
def Pc70 : FdsParams := { Pc with maxSideSize := 70 }

/-- Turbo-rewind, in-place-save settings. -/
def Sc : FdsSettings where
  rewindSpeed := .turbo
  backupOriginal := .inPlace

/-- Original-speed rewind settings. -/
def ScOrig : FdsSettings where
  rewindSpeed := .original
  backupOriginal := .inPlace

/-- A well-formed one-side test file for `Pc`: disk-info block (tag 1,
signature, zero padding), file-amount block `[2, 0]` (0 files, so
`min_blocks = 2`), zeros to the 100-byte side stride. -/
def Fc : List Nat :=
  (1 :: hvcSignature ++ List.replicate 41 0) ++ [2, 0] ++
    List.replicate 42 0

/-- A truncated test file for `Pc`: disk-info block, file-amount block
`[2, 1]` (1 file, so `min_blocks = 4`), one file-header block announcing a
1-byte file, then zeros — so the loader stops at block 3 with
`block_count = 3 < min_blocks = 4`. -/
def FcTrunc : List Nat :=
  (1 :: hvcSignature ++ List.replicate 41 0) ++ [2, 1] ++
    (3 :: List.replicate 12 0 ++ [1, 0, 0]) ++ List.replicate 26 0

/-- A 100-byte file of `7` bytes, used as the save destination in the
save-layout counterexample. -/
def Fsevens : List Nat := List.replicate 100 7

/-- A consistent one-block image state for `Pc`: a 2-byte gap
(`0, 0x80`), a 56-byte all-zero payload at offsets 2..57, and the correct
stored CRC at 58..59 (the CRC of 56 zero bytes is 43001 = `0xA7F9`,
little-endian bytes 249, 167); dirty and writable. -/
def stOneBlock : Fds :=
  { baseSt with
    raw := fun k =>
      if k = 1 then 0x80
      else if k = 58 then 249
      else if k = 59 then 167
      else 0
    usedSpace := 60
    blockCount := 1
    state := .idle
    changed := true }

/-- `stOneBlock` with its low stored-CRC byte corrupted in place. -/
def stBadCrc : Fds :=
  { stOneBlock with raw := upd stOneBlock.raw 58 250 }

/-- A two-block image state (blocks of total sizes 60 and 6) whose write
cursor sits past the last block, as reached by reading past `used_space`
and then asserting WRITE; used with `Pc70`, where appending the implied
third block overflows the side buffer. -/
def stPastEnd : Fds :=
  { baseSt with
    blockCount := 2
    blockOffsets := fun i => if i = 0 then 0 else if i = 1 then 60 else 0
    usedSpace := 66
    currentByte := 68
    state := .writingStopping }

/-- The same two-block layout inside `Pc`'s 200-byte buffer, parked in
WRITING_STOPPING with the unlicensed-pattern counter one short of the
threshold. -/
def stStopping : Fds :=
  { baseSt with
    blockCount := 2
    blockOffsets := fun i => if i = 0 then 0 else if i = 1 then 60 else 0
    usedSpace := 66
    currentByte := 66
    writeGapSkip := 3
    state := .writingStopping }

/-- A streaming read state in the middle of a byte, used by the
read-engine witnesses. -/
def stReading : Fds :=
  { baseSt with
    raw := fun k => if k = 5 then 0xA5 else 0
    usedSpace := 66
    currentByte := 5
    currentBit := 6
    state := .reading
    readyPin := false }

/-- A streaming read state one phase before the byte cursor wraps to 0,
used by the rewind witness. -/
def stWrap : Fds :=
  { baseSt with
    usedSpace := 66
    currentByte := 199
    currentBit := 15
    state := .reading
    readyPin := false }

/-- The scalar observables of a load outcome: result code, block count,
`min_blocks` at termination, and the stop reason (junk marker values for
the fuel-exhaustion case, which never occurs at the chosen fuel). -/
def loadObs (o : Option (FR × Fds × Nat × StopReason)) :
    FR × Nat × Nat × StopReason :=
  match o with
  | some (res, st, m, r) => (res, st.blockCount, m, r)
  | none => (.readOnly, 0, 0, .badSize)

/-- The result code of a load outcome. -/
def loadResCode (o : Option (FR × Fds × Nat × StopReason)) : FR :=
  (loadObs o).1

/-- The block count at termination of a load outcome. -/
def loadBc (o : Option (FR × Fds × Nat × StopReason)) : Nat :=
  (loadObs o).2.1

/-- The `min_blocks` value at termination of a load outcome. -/
def loadMinB (o : Option (FR × Fds × Nat × StopReason)) : Nat :=
  (loadObs o).2.2.1

/-- The stop reason of a load outcome. -/
def loadStopReason (o : Option (FR × Fds × Nat × StopReason)) :
    StopReason :=
  (loadObs o).2.2.2

/-- The result code of re-marking a load outcome's image dirty and
running `fds_save` on it against the file it was loaded from. -/
def dirtySaveCode (P : FdsParams) (F : List Nat)
    (o : Option (FR × Fds × Nat × StopReason)) : FR :=
  match o with
  | some (_, st, _, _) => (fds_save P { st with changed := true } F).1
  | none => .readOnly

/-- The result code the load loop actually produces for each stop reason,
as a function of whether the termination was "strict" (the code's
condition `block_count + 1 < min_blocks`, one block earlier than the
spec's `block_count < min_blocks`). -/
def expectedLoadResult (r : StopReason) (strict : Prop)
    [Decidable strict] : FR :=
  match r with
  | .gapOverflow => if strict then .romTooLarge else .ok
  | .blockOverflow => if strict then .romTooLarge else .ok
  | .fileEnd => if strict then .invalidRom else .ok
  | .kindMismatch => if strict then .invalidRom else .ok
  | .badSignature => .invalidRom
  | .badSize => .invalidRom

/-- The C3 block-index invariant: every block offset is the sum of the
full (gap + payload + CRC) sizes of the blocks before it. -/
def offsetsOk (P : FdsParams) (st : Fds) : Prop :=
  ∀ i, i < st.blockCount →
    st.blockOffsets i = offsSum P st.raw st.blockOffsets i

/-- The internal invariant the block-reading loop of `fds_load_side`
maintains: the offsets equation, `used_space` equal to the total size of
the blocks read so far, `used_space` within the side buffer, the buffer
zero past `used_space` (it is `memset` to zero before the loop), and every
buffer cell a byte value. -/
def LoadInv (P : FdsParams) (st : Fds) : Prop :=
  offsetsOk P st ∧
  st.usedSpace = offsSum P st.raw st.blockOffsets st.blockCount ∧
  st.usedSpace ≤ P.maxSideSize ∧
  (∀ k, st.usedSpace ≤ k → st.raw k = 0) ∧
  (∀ k, st.raw k < 256)

/-- Sum of the gap lengths of blocks `0 .. n-1` (depends only on the
parameters). -/
def gapSum (P : FdsParams) : Nat → Nat
  | 0 => 0
  | n + 1 => gapSum P n + gapBytesFor P n

/-- The payload-provenance invariant of the load loop relative to the
source file `F` and base position `p0`: the file cursor sits exactly
`payloadSum` bytes past the base, never beyond the file, and every loaded
payload byte equals the file byte it was read from. -/
def LoadProv (P : FdsParams) (F : List Nat) (p0 : Nat) (st : Fds)
    (pos : Nat) : Prop :=
  pos = p0 + payloadSum P st.raw st.blockOffsets st.blockCount ∧
  pos ≤ F.length ∧
  ∀ j, j < st.blockCount →
    ∀ t, t < payloadSizeOf P st.raw st.blockOffsets j →
      st.raw (st.blockOffsets j + gapBytesFor P j + t) =
        rd F (p0 + payloadSum P st.raw st.blockOffsets j + t)

/-- What the load loop guarantees at every exit: the offsets equation, a
bounded `used_space` (equal to the total block size on success), and the
payload provenance from the source file. -/
def LoadOut (P : FdsParams) (F : List Nat) (p0 : Nat) (res : FR)
    (st' : Fds) : Prop :=
  offsetsOk P st' ∧ st'.usedSpace ≤ P.maxSideSize ∧
  (res = .ok → st'.usedSpace =
    offsSum P st'.raw st'.blockOffsets st'.blockCount) ∧
  (∀ j, j < st'.blockCount →
    ∀ t, t < payloadSizeOf P st'.raw st'.blockOffsets j →
      st'.raw (st'.blockOffsets j + gapBytesFor P j + t) =
        rd F (p0 + payloadSum P st'.raw st'.blockOffsets j + t)) ∧
  p0 + payloadSum P st'.raw st'.blockOffsets st'.blockCount ≤ F.length

/-! ## General lemmas about the byte-store and fold helpers -/

/-- Rewrites `n &&& 1` to `n % 2` so that concrete states evaluate by
rewriting (this environment's literal simproc for `&&&` does not fire). -/
theorem nat_and_one (n : Nat) : n &&& 1 = n % 2 := Nat.and_one_is_mod n

/-- Rewrites `n &&& 255` to `n % 256`, for the CRC byte splits. -/
theorem nat_and_255 (n : Nat) : n &&& 255 = n % 256 := by
  have h := Nat.and_pow_two_sub_one_eq_mod n 8
  norm_num at h
  exact h

theorem upd_self (f : Nat → Nat) (i v : Nat) : upd f i v i = v := by
  simp [upd]

theorem upd_other (f : Nat → Nat) (i v k : Nat) (h : k ≠ i) :
    upd f i v k = f k := by
  simp [upd, h]

theorem foldl_range_rd {α : Type} (h : Nat → α → α) :
    ∀ (L : List Nat) (init : α),
      (List.range L.length).foldl (fun s i => h (rd L i) s) init =
      L.foldl (fun s b => h b s) init := by
  intro L
  induction L with
  | nil => intro init; rfl
  | cons b T ih =>
    intro init
    show (List.range (T.length + 1)).foldl
        (fun s i => h (rd (b :: T) i) s) init = _
    rw [List.range_succ_eq_map]
    rw [List.foldl_cons, List.foldl_map]
    have e2 : ∀ (s : α) (i : Nat), h (rd (b :: T) (Nat.succ i)) s =
        h (rd T i) s := fun _ _ => rfl
    rw [List.foldl_ext _ _ _ (fun s i _ => e2 s i)]
    rw [List.foldl_cons]
    exact ih (h b init)

/-! ## C4: the CRC unit -/

/-- Claim C4 (confirmed).  The CRC unit starts at `0x8000` and processes
the data bytes followed by two zero bytes, LSB-first, with the stated
shift-register step: the source `fds_crc` computes exactly the function
the claim describes (`fds_crc_spec`). -/
theorem fds_crc_matches_spec (data : List Nat) :
    fds_crc data = fds_crc_spec data := by
  unfold fds_crc fds_crc_spec
  have hflat : ((data ++ [0, 0]).flatMap fun byte =>
      (List.range 8).map fun bitIndex => (byte >>> bitIndex) &&& 1) =
      ((data ++ [0, 0]).map fun byte =>
        (List.range 8).map fun bitIndex => (byte >>> bitIndex) &&& 1).flatten :=
    rfl
  rw [hflat, List.foldl_flatten, List.foldl_map]
  show _ = (data ++ [0, 0]).foldl
      (fun s byte => (List.range 8).foldl (crcBitUpd byte) s) 0x8000
  rw [List.foldl_append]
  rw [List.range_add, List.foldl_append, List.foldl_map]
  have hfront : (List.range data.length).foldl
      (fun sum byteIndex =>
        let byte := if byteIndex < data.length then rd data byteIndex else 0
        (List.range 8).foldl (crcBitUpd byte) sum) 0x8000 =
      data.foldl (fun s byte => (List.range 8).foldl (crcBitUpd byte) s)
        0x8000 := by
    rw [List.foldl_ext
        (g := fun s i => (List.range 8).foldl (crcBitUpd (rd data i)) s)
        _ _
        (fun s i hi => by
          have : i < data.length := List.mem_range.mp hi
          simp [this])]
    exact foldl_range_rd (fun b s => (List.range 8).foldl (crcBitUpd b) s)
      data 0x8000
  rw [hfront]
  have hr2 : List.range 2 = [0, 1] := rfl
  rw [hr2]
  simp only [List.foldl_cons, List.foldl_nil]
  have hsel : ∀ j : Nat, ¬(data.length + j < data.length) := by
    intro j; omega
  simp [hsel 0, hsel 1]

/-! ## C10: precedence of the save preconditions -/

/-- Claim C10 (confirmed).  A save with the dirty flag clear returns
`FR_OK` and changes nothing, even on read-only media; `FDSR_READ_ONLY` is
returned exactly when the image is dirty and read-only (the dirty-flag
check precedes the read-only check). -/
theorem save_unchanged_precedence (P : FdsParams) (st : Fds)
    (F : List Nat) :
    (st.changed = false → fds_save P st F = (.ok, st, F)) ∧
    ((fds_save P st F).1 = .readOnly ↔
      st.changed = true ∧ st.readonly = true) := by
  constructor
  · intro h
    simp [fds_save, h]
  · unfold fds_save
    cases hch : st.changed with
    | false => simp
    | true =>
      cases hro : st.readonly with
      | true => simp
      | false =>
        by_cases hc : crcCheckLoop P st.raw st.blockOffsets 0 st.blockCount
        · simp [hc]
        · simp [hc]

/-- Witness for C10 at a concrete read-only, clean state: the save is a
no-op `FR_OK`. -/
theorem save_unchanged_precedence_witness :
    fds_save Pc { stOneBlock with changed := false, readonly := true }
      Fsevens =
      (.ok, { stOneBlock with changed := false, readonly := true },
       Fsevens) :=
  (save_unchanged_precedence Pc
    { stOneBlock with changed := false, readonly := true } Fsevens).1 rfl

/-! ## C5: the CRC guard of save -/

theorem crcCheckLoop_false_of_bad (P : FdsParams) (raw offs : Nat → Nat) :
    ∀ c i j, i ≤ j → j < i + c →
      fds_crc (blockPayloadBytes P raw offs j) ≠ storedCrcAt P raw offs j →
      crcCheckLoop P raw offs i c = false := by
  intro c
  induction c with
  | zero => intro i j h1 h2 _; omega
  | succ c ih =>
    intro i j h1 h2 hne
    show (if fds_crc (blockPayloadBytes P raw offs i) ≠
        storedCrcAt P raw offs i then false
      else crcCheckLoop P raw offs (i + 1) c) = false
    by_cases hi : fds_crc (blockPayloadBytes P raw offs i) ≠
        storedCrcAt P raw offs i
    · simp [hi]
    · rw [if_neg hi]
      have hij : i ≠ j := fun e => hi (e ▸ hne)
      exact ih (i + 1) j (by omega) (by omega) hne

theorem crcCheckLoop_true_of_all (P : FdsParams) (raw offs : Nat → Nat) :
    ∀ c i, (∀ j, i ≤ j → j < i + c →
      fds_crc (blockPayloadBytes P raw offs j) = storedCrcAt P raw offs j) →
      crcCheckLoop P raw offs i c = true := by
  intro c
  induction c with
  | zero => intro i _; rfl
  | succ c ih =>
    intro i hall
    show (if fds_crc (blockPayloadBytes P raw offs i) ≠
        storedCrcAt P raw offs i then false
      else crcCheckLoop P raw offs (i + 1) c) = true
    rw [if_neg (by simpa using hall i (le_refl i) (by omega))]
    exact ih (i + 1) (fun j h1 h2 => hall j (by omega) (by omega))

/-- Claim C5 (confirmed).  If the image is dirty, not read-only, and some
block's stored trailing CRC differs from the CRC recomputed over its
payload, then `fds_save` returns `FDSR_WRONG_CRC` with the module state
and the file untouched (in particular the dirty flag stays set). -/
theorem save_wrong_crc_guard (P : FdsParams) (st : Fds) (F : List Nat)
    (hch : st.changed = true) (hro : st.readonly = false)
    (hbad : ∃ i, i < st.blockCount ∧
      fds_crc (blockPayloadBytes P st.raw st.blockOffsets i) ≠
        storedCrcAt P st.raw st.blockOffsets i) :
    fds_save P st F = (.wrongCrc, st, F) := by
  obtain ⟨i, hi, hne⟩ := hbad
  have hfalse : crcCheckLoop P st.raw st.blockOffsets 0 st.blockCount =
      false :=
    crcCheckLoop_false_of_bad P st.raw st.blockOffsets st.blockCount 0 i
      (Nat.zero_le i) (by omega) hne
  simp [fds_save, hch, hro, hfalse]

/-- Witness for C5: corrupting the low stored-CRC byte of a consistent
one-block image makes `fds_save` fail with `FDSR_WRONG_CRC` and touch
nothing. -/
theorem save_wrong_crc_guard_witness :
    fds_save Pc stBadCrc Fsevens = (.wrongCrc, stBadCrc, Fsevens) :=
  save_wrong_crc_guard Pc stBadCrc Fsevens rfl rfl
    ⟨0, by decide, by
      simp only [blockPayloadBytes, storedCrcAt, fds_get_block_size,
        payloadSizeOf, gapBytesFor, extractRaw, fds_crc, crcBitUpd,
        stBadCrc, stOneBlock, upd, baseSt, rd, Pc, nat_and_one, nat_and_255,
        List.range_succ, List.range_zero, List.map_append, List.map_cons,
        List.map_nil, List.cons_append, List.nil_append,
        List.singleton_append, List.foldl_append, List.foldl_cons,
        List.foldl_nil, List.length_cons, List.length_nil,
        List.length_append, List.length_replicate, List.length_map,
        List.length_range, List.getD_eq_getElem?_getD,
        List.getElem?_replicate, List.getElem?_cons_zero,
        List.getElem?_cons_succ, List.getElem?_nil, Option.getD_some,
        Option.getD_none, Nat.reduceAdd, Nat.reduceSub, Nat.reduceMul,
        Nat.reduceDiv, Nat.reduceMod, Nat.reduceOr, Nat.reduceXor,
        Nat.reduceShiftLeft, Nat.reduceShiftRight, Nat.reduceLT,
        Nat.reduceGT, Nat.reduceLeDiff, Nat.reduceEqDiff, reduceIte,
        reduceCtorEq, List.replicate, ne_eq, not_true, not_false_iff,
        ite_true, ite_false]⟩

/-! ## C9: the consecutive-block-write pattern never re-enters WRITING_GAP -/

/-- Claim C9 (code bug).  In `WRITING_STOPPING`, when the count of
consecutive short pulses reaches `MULTI_WRITE_UNLICENSED_BITS`, the code
calls `fds_reset_writing()` — which repositions the cursor at the next
block's boundary, re-lays its gap and sets the dirty flag — but never
assigns `fds_state = FDS_WRITING_GAP`, so the FSM stays in
`WRITING_STOPPING` and the promised "start writing of the next block"
(the source's own comment at line 194) cannot happen: `fds_write_impulse`
writes no bits in that state.  Concretely, at a two-block image with the
cursor past the last block, after the fourth short pulse
(`MULTI_WRITE_UNLICENSED_BITS = 4` in `Pc`) the block is prepared
(`current_byte` moved to the new block's payload start, counter cleared,
image dirty) yet the state is still `WRITING_STOPPING`, not
`WRITING_GAP`. -/
theorem multi_write_stays_in_stopping :
    (fds_write_impulse Pc false false stStopping 5).state =
      .writingStopping ∧
    (fds_write_impulse Pc false false stStopping 5).state ≠ .writingGap ∧
    (fds_write_impulse Pc false false stStopping 5).writeGapSkip = 0 ∧
    (fds_write_impulse Pc false false stStopping 5).changed = true ∧
    (fds_write_impulse Pc false false stStopping 5).currentByte = 68 ∧
    (fds_write_impulse Pc false false stStopping 5).blockCount = 3 := by
  decide

/-! ## C7: the read-engine slot encoding -/

/-- Claim C7 (confirmed).  The refill callback is a no-op unless the FSM
is READING or READ_WAIT_READY; each produced slot toggles the clock, takes
`b = (image[current_byte] >> (current_bit / 2)) & 1`, computes
`value = b XOR clock`, emits `IMPULSE_LENGTH - 1` iff `value = 1` and
`last_value = 0` (else 0), records `last_value = value`, and increments
`current_bit`, wrapping it to 0 at 16 with `current_byte` advancing modulo
`MAX_SIDE_SIZE` — the cursor/`last_value` clauses hold whenever the rewind
override of C8 does not fire in the same phase (the spec states that
override separately).  `clock ≤ 1` is the register's invariant (it is only
ever toggled from 0). -/
theorem read_refill_encoding (P : FdsParams) (S : FdsSettings) (now : Nat)
    (st : Fds) (buf : List Nat) (pos len : Nat) (hclock : st.clock ≤ 1) :
    ((st.state ≠ .reading ∧ st.state ≠ .readWaitReady) →
      fds_dma_fill_read_buffer P S now st buf pos len = (st, buf)) ∧
    ((fillStep P S now st).2 =
      if ((st.raw st.currentByte >>> (st.currentBit / 2)) &&& 1) ^^^
          (st.clock ^^^ 1) = 1 ∧ st.lastValue = 0
      then P.readImpulseLength - 1 else 0) ∧
    (¬rewindTrigger P S st →
      (fillStep P S now st).1.clock = st.clock ^^^ 1 ∧
      (fillStep P S now st).1.lastValue =
        ((st.raw st.currentByte >>> (st.currentBit / 2)) &&& 1) ^^^
          (st.clock ^^^ 1) ∧
      (fillStep P S now st).1.currentBit =
        (if st.currentBit + 1 > 15 then 0 else st.currentBit + 1) ∧
      (fillStep P S now st).1.currentByte =
        (if st.currentBit + 1 > 15 then (st.currentByte + 1) % P.maxSideSize
         else st.currentByte)) := by
  have hval : ((st.raw st.currentByte >>> (st.currentBit / 2)) &&& 1) ^^^
      (st.clock ^^^ 1) ≤ 1 := by
    have h2 : st.clock ^^^ 1 ≤ 1 := by
      interval_cases h : st.clock <;> decide
    have h1 : (st.raw st.currentByte >>> (st.currentBit / 2)) &&& 1 ≤ 1 :=
      Nat.and_le_right
    generalize (st.raw st.currentByte >>> (st.currentBit / 2)) &&& 1 = a
      at h1 ⊢
    generalize st.clock ^^^ 1 = b at h2 ⊢
    interval_cases a <;> interval_cases b <;> decide
  have hiff : (((st.raw st.currentByte >>> (st.currentBit / 2)) &&& 1) ^^^
        (st.clock ^^^ 1) ≠ 0 ∧ st.lastValue = 0) ↔
      (((st.raw st.currentByte >>> (st.currentBit / 2)) &&& 1) ^^^
        (st.clock ^^^ 1) = 1 ∧ st.lastValue = 0) := by
    constructor
    · rintro ⟨hv, hl⟩
      exact ⟨by omega, hl⟩
    · rintro ⟨hv, hl⟩
      exact ⟨by omega, hl⟩
  refine ⟨?_, ?_, ?_⟩
  · intro h
    cases hs : st.state <;> simp [fds_dma_fill_read_buffer] <;>
      simp [hs] at h ⊢
  · simp only [fillStep, hiff]
    split_ifs <;> rfl
  · intro hno
    unfold rewindTrigger at hno
    push_neg at hno
    by_cases h1 : st.currentBit + 1 > 15
    · have h2 : ¬((st.currentByte + 1) % P.maxSideSize = 0 ∨
          (S.rewindSpeed = .turbo ∧
            (st.currentByte + 1) % P.maxSideSize >
              st.usedSpace + P.notReadyBytes)) := by
        rcases hno h1 with ⟨ha, hb⟩
        rintro (hc | ⟨hd, he⟩)
        · exact ha hc
        · exact absurd he (by simpa using hb hd)
      simp only [fillStep]
      rw [if_pos h1, if_neg h2]
      exact ⟨rfl, rfl, by simp [h1], by simp [h1]⟩
    · simp only [fillStep]
      rw [if_neg h1]
      exact ⟨rfl, rfl, by simp [h1], by simp [h1]⟩

/-- Witness for C7 at a concrete mid-byte streaming state (`0xA5` under
the head, bit 3 selected, clock 0): the no-op clause and the slot/cursor
clauses instantiate. -/
theorem read_refill_encoding_witness :
    ((stReading.state ≠ .reading ∧ stReading.state ≠ .readWaitReady) →
      fds_dma_fill_read_buffer Pc Sc 17 stReading [9, 9] 0 2 =
        (stReading, [9, 9])) ∧
    ((fillStep Pc Sc 17 stReading).2 =
      if ((stReading.raw stReading.currentByte >>>
            (stReading.currentBit / 2)) &&& 1) ^^^
          (stReading.clock ^^^ 1) = 1 ∧ stReading.lastValue = 0
      then Pc.readImpulseLength - 1 else 0) ∧
    (¬rewindTrigger Pc Sc stReading →
      (fillStep Pc Sc 17 stReading).1.clock = stReading.clock ^^^ 1 ∧
      (fillStep Pc Sc 17 stReading).1.lastValue =
        ((stReading.raw stReading.currentByte >>>
          (stReading.currentBit / 2)) &&& 1) ^^^ (stReading.clock ^^^ 1) ∧
      (fillStep Pc Sc 17 stReading).1.currentBit =
        (if stReading.currentBit + 1 > 15 then 0
         else stReading.currentBit + 1) ∧
      (fillStep Pc Sc 17 stReading).1.currentByte =
        (if stReading.currentBit + 1 > 15
         then (stReading.currentByte + 1) % Pc.maxSideSize
         else stReading.currentByte)) :=
  read_refill_encoding Pc Sc 17 stReading [9, 9] 0 2 (by decide)

/-! ## C8: the rewind transition of the read engine -/

/-- Claim C8 (confirmed).  Whenever completing a phase advances the byte
cursor and the advanced cursor wrapped to 0 — or, in turbo rewind mode,
ran past `used_space + NOT_READY_BYTES` — the engine stops streaming: it
asserts NOT_READY (READY line set high), records `not_ready_time = now`,
moves the FSM to `READ_WAIT_READY_TIMER`, and `fds_reset_reading` clears
`clock`, `last_value` and `current_bit` (in turbo mode it also rewinds
`current_byte` to 0; in the non-turbo case the trigger itself forces the
wrapped cursor to be 0). -/
theorem read_rewind_transition (P : FdsParams) (S : FdsSettings)
    (now : Nat) (st : Fds) (hw : rewindTrigger P S st) :
    (fillStep P S now st).1.state = .readWaitReadyTimer ∧
    (fillStep P S now st).1.readyPin = true ∧
    (fillStep P S now st).1.notReadyTime = now ∧
    (fillStep P S now st).1.clock = 0 ∧
    (fillStep P S now st).1.lastValue = 0 ∧
    (fillStep P S now st).1.currentBit = 0 ∧
    (fillStep P S now st).1.currentByte =
      (if S.rewindSpeed = .turbo then 0
       else (st.currentByte + 1) % P.maxSideSize) ∧
    (∀ st2 : Fds, fds_reset_reading S st2 =
      { st2 with clock := 0, currentBit := 0, lastValue := 0,
                 currentByte := if S.rewindSpeed = .turbo then 0
                                else st2.currentByte }) := by
  obtain ⟨hbit, hcond⟩ := hw
  simp only [fillStep]
  rw [if_pos hbit, if_pos hcond]
  refine ⟨rfl, rfl, rfl, rfl, rfl, rfl, ?_, fun st2 => rfl⟩
  simp [fds_reset_reading]

/-- Witness for C8 at a concrete state one phase before the cursor wraps
(`current_byte = 199`, `current_bit = 15` under `Pc`'s 200-byte buffer). -/
theorem read_rewind_transition_witness :
    (fillStep Pc Sc 23 stWrap).1.state = .readWaitReadyTimer ∧
    (fillStep Pc Sc 23 stWrap).1.readyPin = true ∧
    (fillStep Pc Sc 23 stWrap).1.notReadyTime = 23 ∧
    (fillStep Pc Sc 23 stWrap).1.clock = 0 ∧
    (fillStep Pc Sc 23 stWrap).1.lastValue = 0 ∧
    (fillStep Pc Sc 23 stWrap).1.currentBit = 0 ∧
    (fillStep Pc Sc 23 stWrap).1.currentByte =
      (if Sc.rewindSpeed = .turbo then 0
       else (stWrap.currentByte + 1) % Pc.maxSideSize) ∧
    (∀ st2 : Fds, fds_reset_reading Sc st2 =
      { st2 with clock := 0, currentBit := 0, lastValue := 0,
                 currentByte := if Sc.rewindSpeed = .turbo then 0
                                else st2.currentByte }) :=
  read_rewind_transition Pc Sc 23 stWrap (by
    constructor
    · decide
    · left
      decide)

/-! ## C2: what the save loop writes -/

theorem writeAt_length (F : List Nat) (p : Nat) (bs : List Nat) :
    (writeAt F p bs).length = max F.length (p + bs.length) := by
  simp [writeAt]

theorem rd_writeAt (F : List Nat) (p : Nat) (bs : List Nat) (k : Nat) :
    rd (writeAt F p bs) k =
      if p ≤ k ∧ k < p + bs.length then rd bs (k - p) else rd F k := by
  by_cases hk : k < max F.length (p + bs.length)
  · show rd ((List.range (max F.length (p + bs.length))).map _) k = _
    unfold rd
    rw [List.getD_eq_getElem?_getD, List.getElem?_map,
      List.getElem?_range hk]
    rfl
  · have h1 : F.length ≤ k := by omega
    have h2 : p + bs.length ≤ k := by omega
    show rd ((List.range (max F.length (p + bs.length))).map _) k = _
    unfold rd
    rw [List.getD_eq_default _ _ (by simpa using hk),
      List.getD_eq_default _ _ h1, if_neg (by omega)]

theorem rd_extractRaw (raw : Nat → Nat) (a len t : Nat) (h : t < len) :
    rd (extractRaw raw a len) t = raw (a + t) := by
  unfold rd extractRaw
  rw [List.getD_eq_getElem?_getD, List.getElem?_map,
    List.getElem?_range h]
  rfl

theorem rd_extractSeg (F : List Nat) (p len t : Nat) (h : t < len) :
    rd (extractSeg F p len) t = rd F (p + t) := by
  show rd ((List.range len).map _) t = _
  unfold rd
  rw [List.getD_eq_getElem?_getD, List.getElem?_map,
    List.getElem?_range h]
  rfl

theorem extractRaw_length (raw : Nat → Nat) (a len : Nat) :
    (extractRaw raw a len).length = len := by
  simp [extractRaw]

theorem extractSeg_length (F : List Nat) (p len : Nat) :
    (extractSeg F p len).length = len := by
  simp [extractSeg]

/-- Reading back a freshly-written region returns the written bytes. -/
theorem extractSeg_writeAt (F : List Nat) (p : Nat) (bs : List Nat) :
    extractSeg (writeAt F p bs) p bs.length = bs := by
  apply List.ext_getElem
  · simp [extractSeg]
  · intro i h1 h2
    have hi : i < bs.length := h2
    show ((List.range bs.length).map _)[i] = _
    rw [List.getElem_map, List.getElem_range]
    show rd (writeAt F p bs) (p + i) = _
    rw [rd_writeAt, if_pos (by omega)]
    have : p + i - p = i := by omega
    rw [this]
    exact List.getD_eq_getElem bs 0 hi

theorem codePayloadSumFrom_succ_left (P : FdsParams)
    (raw offs : Nat → Nat) :
    ∀ c i, codePayloadSumFrom P raw offs i (c + 1) =
      fds_get_block_size P raw offs i false false +
        codePayloadSumFrom P raw offs (i + 1) c := by
  intro c
  induction c with
  | zero =>
    intro i
    show codePayloadSumFrom P raw offs i 0 +
        fds_get_block_size P raw offs (i + 0) false false = _
    simp [codePayloadSumFrom]
  | succ c ih =>
    intro i
    show codePayloadSumFrom P raw offs i (c + 1) +
        fds_get_block_size P raw offs (i + (c + 1)) false false = _
    rw [ih i]
    show _ = _ + (codePayloadSumFrom P raw offs (i + 1) c +
        fds_get_block_size P raw offs (i + 1 + c) false false)
    have : i + (c + 1) = i + 1 + c := by omega
    rw [this]
    omega

/-- The block-writing loop of `fds_save`, characterised: the final file
has the expected length; the region of each written block holds exactly
that block's `fds_get_block_size(·, 0, 0)` payload bytes from
`block_offsets[·] + gap`; and every byte before the write position or
after the last written byte is untouched. -/
theorem saveWriteLoop_spec (P : FdsParams) (raw offs : Nat → Nat) :
    ∀ c F p i,
      ((saveWriteLoop P raw offs F p i c).length =
        if c = 0 then F.length
        else max F.length (p + codePayloadSumFrom P raw offs i c)) ∧
      (∀ t, t < c →
        extractSeg (saveWriteLoop P raw offs F p i c)
          (p + codePayloadSumFrom P raw offs i t)
          (fds_get_block_size P raw offs (i + t) false false) =
        blockPayloadBytes P raw offs (i + t)) ∧
      (∀ k, (k < p ∨ p + codePayloadSumFrom P raw offs i c ≤ k) →
        rd (saveWriteLoop P raw offs F p i c) k = rd F k) := by
  intro c
  induction c with
  | zero =>
    intro F p i
    refine ⟨by simp [saveWriteLoop], fun t ht => absurd ht (by omega),
      fun k _ => rfl⟩
  | succ c ih =>
    intro F p i
    have hlen0 : (extractRaw raw (offs i + gapBytesFor P i)
        (fds_get_block_size P raw offs i false false)).length =
        fds_get_block_size P raw offs i false false :=
      extractRaw_length ..
    have hstep : saveWriteLoop P raw offs F p i (c + 1) =
        saveWriteLoop P raw offs
          (writeAt F p (extractRaw raw (offs i + gapBytesFor P i)
            (fds_get_block_size P raw offs i false false)))
          (p + (extractRaw raw (offs i + gapBytesFor P i)
            (fds_get_block_size P raw offs i false false)).length)
          (i + 1) c := rfl
    obtain ⟨ihlen, ihseg, ihout⟩ := ih
      (writeAt F p (extractRaw raw (offs i + gapBytesFor P i)
        (fds_get_block_size P raw offs i false false)))
      (p + fds_get_block_size P raw offs i false false) (i + 1)
    rw [hstep, hlen0]
    have hsum := codePayloadSumFrom_succ_left P raw offs c i
    refine ⟨?_, ?_, ?_⟩
    · rw [ihlen, writeAt_length, hlen0, hsum]
      cases c with
      | zero => simp [codePayloadSumFrom]
      | succ c => simp only [if_neg (Nat.succ_ne_zero c),
          if_neg (Nat.succ_ne_zero (c + 1))]; omega
    · intro t ht
      cases t with
      | zero =>
        have hreg : ∀ u, u < fds_get_block_size P raw offs i false false →
            rd (saveWriteLoop P raw offs
              (writeAt F p (extractRaw raw (offs i + gapBytesFor P i)
                (fds_get_block_size P raw offs i false false)))
              (p + fds_get_block_size P raw offs i false false) (i + 1) c)
              (p + u) = raw (offs i + gapBytesFor P i + u) := by
          intro u hu
          rw [ihout (p + u) (Or.inl (by omega)), rd_writeAt, hlen0,
            if_pos (by omega)]
          have : p + u - p = u := by omega
          rw [this, rd_extractRaw raw _ _ u hu]
        show extractSeg _ (p + codePayloadSumFrom P raw offs i 0)
            (fds_get_block_size P raw offs (i + 0) false false) =
          blockPayloadBytes P raw offs (i + 0)
        have h0 : codePayloadSumFrom P raw offs i 0 = 0 := rfl
        have hi0 : i + 0 = i := rfl
        rw [h0, Nat.add_zero, hi0]
        unfold extractSeg blockPayloadBytes extractRaw
        refine List.map_congr_left (fun u hu => ?_)
        exact hreg u (List.mem_range.mp hu)
      | succ u =>
        have hu : u < c := by omega
        have := ihseg u hu
        have harith : p + codePayloadSumFrom P raw offs i (u + 1) =
            p + fds_get_block_size P raw offs i false false +
              codePayloadSumFrom P raw offs (i + 1) u := by
          rw [codePayloadSumFrom_succ_left]
          omega
        have hidx : i + (u + 1) = i + 1 + u := by omega
        rw [harith, hidx]
        exact this
    · intro k hk
      have hout1 : rd (saveWriteLoop P raw offs
          (writeAt F p (extractRaw raw (offs i + gapBytesFor P i)
            (fds_get_block_size P raw offs i false false)))
          (p + fds_get_block_size P raw offs i false false) (i + 1) c) k =
          rd (writeAt F p (extractRaw raw (offs i + gapBytesFor P i)
            (fds_get_block_size P raw offs i false false))) k := by
        apply ihout
        rcases hk with h | h
        · exact Or.inl (by omega)
        · right
          rw [hsum] at h
          omega
      rw [hout1, rd_writeAt, hlen0, if_neg]
      rcases hk with h | h
      · omega
      · rw [hsum] at h
        omega

/-- Claim C2, counterexample to the claim as stated.  For the consistent
one-block image `stOneBlock` saved in place over a file of `7` bytes, the
save succeeds and the file region of block 0 holds exactly the 56 payload
bytes — but NOT the stored CRC bytes the claim promises: file bytes 56 and
57 still hold the old file content `7`, not the stored CRC `249, 167`, so
the claim's "exactly payload_size(i) + 2 bytes — the payload followed by
its stored two-byte CRC" is false (the source writes
`fds_get_block_size(i, 0, 0)` bytes, which excludes the CRC). -/
theorem save_block_bytes_counterexample :
    (fds_save Pc stOneBlock Fsevens).1 = .ok ∧
    extractSeg (fds_save Pc stOneBlock Fsevens).2.2 0 56 =
      extractRaw stOneBlock.raw 2 56 ∧
    extractSeg (fds_save Pc stOneBlock Fsevens).2.2 0 58 ≠
      extractRaw stOneBlock.raw 2 58 ∧
    rd (fds_save Pc stOneBlock Fsevens).2.2 56 = 7 ∧
    rd (fds_save Pc stOneBlock Fsevens).2.2 57 = 7 ∧
    stOneBlock.raw 58 = 249 ∧ stOneBlock.raw 59 = 167 := by
  have hsave : fds_save Pc stOneBlock Fsevens =
      (.ok, { stOneBlock with changed := false },
       writeAt Fsevens 0 (extractRaw stOneBlock.raw 2 56)) := by
    simp only [fds_save, crcCheckLoop, saveWriteLoop, blockPayloadBytes,
      storedCrcAt, fds_get_block_size, payloadSizeOf, gapBytesFor,
      extractRaw, fds_crc, crcBitUpd, stOneBlock, upd, baseSt, rd, Pc,
      Fsevens, nat_and_one, nat_and_255,
      List.range_succ, List.range_zero, List.map_append, List.map_cons,
      List.map_nil, List.cons_append, List.nil_append,
      List.singleton_append, List.foldl_append, List.foldl_cons,
      List.foldl_nil, List.length_cons, List.length_nil,
      List.length_append, List.length_replicate, List.length_map,
      List.length_range, List.getD_eq_getElem?_getD,
      List.getElem?_replicate, List.getElem?_cons_zero,
      List.getElem?_cons_succ, List.getElem?_nil, Option.getD_some,
      Option.getD_none, Nat.reduceAdd, Nat.reduceSub, Nat.reduceMul,
      Nat.reduceDiv, Nat.reduceMod, Nat.reduceOr, Nat.reduceXor,
      Nat.reduceShiftLeft, Nat.reduceShiftRight, Nat.reduceLT,
      Nat.reduceGT, Nat.reduceLeDiff, Nat.reduceEqDiff, reduceIte,
      reduceCtorEq, List.replicate, ne_eq, not_true, not_false_iff,
      ite_true, ite_false]
  have hF : Fsevens.length = 100 := by simp [Fsevens]
  have hrdF : ∀ k, k < 100 → rd Fsevens k = 7 := by
    intro k hk
    unfold Fsevens rd
    rw [List.getD_eq_getElem?_getD, List.getElem?_replicate, if_pos hk]
    rfl
  have hW : ∀ k, rd (writeAt Fsevens 0 (extractRaw stOneBlock.raw 2 56))
      k = if k < 56 then stOneBlock.raw (2 + k) else rd Fsevens k := by
    intro k
    rw [rd_writeAt, extractRaw_length]
    by_cases hk : k < 56
    · rw [if_pos (by omega), if_pos hk, Nat.sub_zero,
        rd_extractRaw _ _ _ _ (by omega)]
    · rw [if_neg (by omega), if_neg hk]
  have hWfile : (fds_save Pc stOneBlock Fsevens).2.2 =
      writeAt Fsevens 0 (extractRaw stOneBlock.raw 2 56) := by
    rw [hsave]
  have hres : (fds_save Pc stOneBlock Fsevens).1 = FR.ok := by
    rw [hsave]
  refine ⟨hres, ?_, ?_, ?_, ?_, by decide, by decide⟩
  · rw [hWfile]
    have h56 : (extractRaw stOneBlock.raw 2 56).length = 56 :=
      extractRaw_length ..
    rw [show (56 : Nat) = (extractRaw stOneBlock.raw 2 56).length from
      h56.symm]
    exact extractSeg_writeAt Fsevens 0 (extractRaw stOneBlock.raw 2 56)
  · rw [hWfile]
    intro hcontra
    have h56 := congrArg (fun l => rd l 56) hcontra
    simp only [] at h56
    rw [rd_extractSeg _ _ _ _ (by omega), Nat.zero_add, hW 56,
      if_neg (by omega), hrdF 56 (by omega),
      rd_extractRaw _ _ _ _ (by omega)] at h56
    have h249 : stOneBlock.raw (2 + 56) = 249 := by decide
    rw [h249] at h56
    omega
  · rw [hWfile, hW 56, if_neg (by omega), hrdF 56 (by omega)]
  · rw [hWfile, hW 57, if_neg (by omega), hrdF 57 (by omega)]

/-- Claim C2 amended (the counterexample forces dropping the "+ 2" and the
trailing CRC): a successful save writes, for each block `i` in order, into
the destination region starting at
`fsize % ROM_SIDE_SIZE + side * ROM_SIDE_SIZE` plus the sizes of the
previous blocks, exactly `fds_get_block_size(i, 0, 0)` bytes — the payload
only, WITHOUT the stored CRC — taken from the image buffer at
`block_offsets[i] + gap_bytes_for(i)`; bytes outside the written region
are untouched. -/
theorem save_writes_payload_only (P : FdsParams) (st : Fds) (F : List Nat)
    (hch : st.changed = true) (hro : st.readonly = false)
    (hcrc : ∀ j, j < st.blockCount →
      fds_crc (blockPayloadBytes P st.raw st.blockOffsets j) =
        storedCrcAt P st.raw st.blockOffsets j) :
    (fds_save P st F).1 = .ok ∧
    (fds_save P st F).2.1 = { st with changed := false } ∧
    ((fds_save P st F).2.2.length =
      if st.blockCount = 0 then F.length
      else max F.length (F.length % P.romSideSize +
        st.side * P.romSideSize +
        codePayloadSumFrom P st.raw st.blockOffsets 0 st.blockCount)) ∧
    (∀ i, i < st.blockCount →
      extractSeg (fds_save P st F).2.2
        (F.length % P.romSideSize + st.side * P.romSideSize +
          codePayloadSumFrom P st.raw st.blockOffsets 0 i)
        (fds_get_block_size P st.raw st.blockOffsets i false false) =
      blockPayloadBytes P st.raw st.blockOffsets i) ∧
    (∀ k, (k < F.length % P.romSideSize + st.side * P.romSideSize ∨
        F.length % P.romSideSize + st.side * P.romSideSize +
          codePayloadSumFrom P st.raw st.blockOffsets 0 st.blockCount ≤ k) →
      rd (fds_save P st F).2.2 k = rd F k) := by
  have hloop : crcCheckLoop P st.raw st.blockOffsets 0 st.blockCount =
      true :=
    crcCheckLoop_true_of_all P st.raw st.blockOffsets st.blockCount 0
      (fun j _ hj => hcrc j (by omega))
  have hsave : fds_save P st F = (.ok, { st with changed := false },
      saveWriteLoop P st.raw st.blockOffsets F
        (F.length % P.romSideSize + st.side * P.romSideSize) 0
        st.blockCount) := by
    simp [fds_save, hch, hro, hloop]
  obtain ⟨hlen, hseg, hout⟩ := saveWriteLoop_spec P st.raw st.blockOffsets
    st.blockCount F (F.length % P.romSideSize + st.side * P.romSideSize) 0
  rw [hsave]
  refine ⟨rfl, rfl, hlen, ?_, hout⟩
  intro i hi
  have := hseg i hi
  rwa [Nat.zero_add] at this

/-- Witness for the amended C2 at the consistent one-block image: the save
succeeds and the characterisation instantiates. -/
theorem save_writes_payload_only_witness :
    (fds_save Pc stOneBlock Fsevens).1 = .ok ∧
    (fds_save Pc stOneBlock Fsevens).2.1 =
      { stOneBlock with changed := false } ∧
    ((fds_save Pc stOneBlock Fsevens).2.2.length =
      if stOneBlock.blockCount = 0 then Fsevens.length
      else max Fsevens.length (Fsevens.length % Pc.romSideSize +
        stOneBlock.side * Pc.romSideSize +
        codePayloadSumFrom Pc stOneBlock.raw stOneBlock.blockOffsets 0
          stOneBlock.blockCount)) ∧
    (∀ i, i < stOneBlock.blockCount →
      extractSeg (fds_save Pc stOneBlock Fsevens).2.2
        (Fsevens.length % Pc.romSideSize + stOneBlock.side * Pc.romSideSize +
          codePayloadSumFrom Pc stOneBlock.raw stOneBlock.blockOffsets 0 i)
        (fds_get_block_size Pc stOneBlock.raw stOneBlock.blockOffsets i
          false false) =
      blockPayloadBytes Pc stOneBlock.raw stOneBlock.blockOffsets i) ∧
    (∀ k, (k < Fsevens.length % Pc.romSideSize +
          stOneBlock.side * Pc.romSideSize ∨
        Fsevens.length % Pc.romSideSize + stOneBlock.side * Pc.romSideSize +
          codePayloadSumFrom Pc stOneBlock.raw stOneBlock.blockOffsets 0
            stOneBlock.blockCount ≤ k) →
      rd (fds_save Pc stOneBlock Fsevens).2.2 k = rd Fsevens k) :=
  save_writes_payload_only Pc stOneBlock Fsevens rfl rfl
    (fun j hj => by
      have hbc : stOneBlock.blockCount = 1 := rfl
      have hj0 : j = 0 := by omega
      subst hj0
      simp only [blockPayloadBytes, storedCrcAt, fds_get_block_size,
        payloadSizeOf, gapBytesFor, extractRaw, fds_crc, crcBitUpd,
        stOneBlock, upd, baseSt, rd, Pc, nat_and_one, nat_and_255,
        List.range_succ, List.range_zero, List.map_append, List.map_cons,
        List.map_nil, List.cons_append, List.nil_append,
        List.singleton_append, List.foldl_append, List.foldl_cons,
        List.foldl_nil, List.length_cons, List.length_nil,
        List.length_append, List.length_replicate, List.length_map,
        List.length_range, List.getD_eq_getElem?_getD,
        List.getElem?_replicate, List.getElem?_cons_zero,
        List.getElem?_cons_succ, List.getElem?_nil, Option.getD_some,
        Option.getD_none, Nat.reduceAdd, Nat.reduceSub, Nat.reduceMul,
        Nat.reduceDiv, Nat.reduceMod, Nat.reduceOr, Nat.reduceXor,
        Nat.reduceShiftLeft, Nat.reduceShiftRight, Nat.reduceLT,
        Nat.reduceGT, Nat.reduceLeDiff, Nat.reduceEqDiff, reduceIte,
        reduceCtorEq, List.replicate, ne_eq, not_true, not_false_iff,
        ite_true, ite_false])

/-! ## C6: the load failure taxonomy -/

theorem writeZeros_apply :
    ∀ (count : Nat) (raw : Nat → Nat) (start k : Nat),
      writeZeros raw start count k =
        if start ≤ k ∧ k < start + count then 0 else raw k := by
  intro count
  induction count with
  | zero =>
    intro raw start k
    rw [if_neg (by omega)]
    rfl
  | succ c ih =>
    intro raw start k
    show writeZeros (upd raw start 0) (start + 1) c k = _
    rw [ih]
    unfold upd
    by_cases h1 : start + 1 ≤ k ∧ k < start + 1 + c
    · rw [if_pos h1, if_pos (by omega)]
    · rw [if_neg h1]
      by_cases h2 : k = start
      · rw [if_pos h2, if_pos (by omega)]
      · rw [if_neg h2, if_neg (by omega)]

theorem gapZeroLoop_eq (P : FdsParams) :
    ∀ (count : Nat) (raw : Nat → Nat) (used i : Nat),
      used + count ≤ P.maxSideSize →
      gapZeroLoop P raw used i count =
        (writeZeros raw used count, used + count, none) := by
  intro count
  induction count with
  | zero => intro raw used i _; rfl
  | succ c ih =>
    intro raw used i hle
    show (if used + 1 - 1 ≥ P.maxSideSize then _
      else gapZeroLoop P (upd raw used 0) (used + 1) (i + 1) c) = _
    rw [if_neg (by omega), ih (upd raw used 0) (used + 1) (i + 1)
      (by omega)]
    show (writeZeros (upd raw used 0) (used + 1) c, used + 1 + c, none) = _
    have : used + 1 + c = used + (c + 1) := by omega
    rw [this]
    rfl

/-- The taxonomy of the load loop: the result code is a function of the
stop reason and the strictness test `block_count + 1 < min_blocks` at the
moment the loop stops. -/
theorem loadLoop_taxonomy (P : FdsParams) (F : List Nat) :
    ∀ fuel st pos minB res st' minB' r,
      loadLoop P F fuel st pos minB = some (res, st', minB', r) →
      res = expectedLoadResult r (st'.blockCount + 1 < minB') := by
  intro fuel
  induction fuel with
  | zero =>
    intro st pos minB res st' minB' r h
    exact absurd h (by simp [loadLoop])
  | succ fuel ih =>
    intro st pos minB res st' minB' r h
    simp only [loadLoop] at h
    repeat' split at h
    all_goals
      first
        | exact ih _ _ _ _ _ _ _ h
        | (simp only [Option.some.injEq, Prod.mk.injEq] at h
           obtain ⟨h1, h2, h3, h4⟩ := h
           subst h1; subst h2; subst h3; subst h4
           simp only [expectedLoadResult]
           all_goals
             first
               | rfl
               | (rw [if_pos (by omega)]; done)
               | (rw [if_neg (by omega)]; done)
               | (simp_all; done)
               | (exfalso; omega))
        | (simp only [loadIterRest] at h
           repeat' split at h
           all_goals
             first
               | exact ih _ _ _ _ _ _ _ h
               | (simp only [Option.some.injEq, Prod.mk.injEq] at h
                  obtain ⟨h1, h2, h3, h4⟩ := h
                  subst h1; subst h2; subst h3; subst h4
                  simp only [expectedLoadResult]
                  all_goals
                    first
                      | rfl
                      | (rw [if_pos (by omega)]; done)
                      | (rw [if_neg (by omega)]; done)
                      | (simp_all; done)
                      | (exfalso; omega)))

/-- **C6** — Load failure taxonomy, amended: the loader's strictness test
is `block_count + 1 < min_blocks` (lines 582, 627, 649, 662), not the
claimed `block_count < min_blocks`, and the unconditional-acceptance
clause holds for the four rollback stop reasons (overflow / EOF /
kind-mismatch), a bad disk-info signature or bad file size always failing
with `FDSR_INVALID_ROM`.  Under the amended test: an overflow stop yields
`FDSR_ROM_TOO_LARGE`, a premature-EOF or kind-mismatch stop yields
`FDSR_INVALID_ROM`, and when `min_blocks ≤ block_count + 1` the truncation
is accepted with `FDSR_OK`. -/
theorem load_failure_taxonomy (P : FdsParams) (F : List Nat)
    (side : Nat) (ro : Bool)
    (h : (fds_load_side P F side ro).isSome = true) :
    ((loadStopReason (fds_load_side P F side ro) = .gapOverflow ∨
      loadStopReason (fds_load_side P F side ro) = .blockOverflow) →
      loadBc (fds_load_side P F side ro) + 1 <
        loadMinB (fds_load_side P F side ro) →
      loadResCode (fds_load_side P F side ro) = .romTooLarge) ∧
    ((loadStopReason (fds_load_side P F side ro) = .fileEnd ∨
      loadStopReason (fds_load_side P F side ro) = .kindMismatch) →
      loadBc (fds_load_side P F side ro) + 1 <
        loadMinB (fds_load_side P F side ro) →
      loadResCode (fds_load_side P F side ro) = .invalidRom) ∧
    ((loadStopReason (fds_load_side P F side ro) = .gapOverflow ∨
      loadStopReason (fds_load_side P F side ro) = .blockOverflow ∨
      loadStopReason (fds_load_side P F side ro) = .fileEnd ∨
      loadStopReason (fds_load_side P F side ro) = .kindMismatch) →
      loadMinB (fds_load_side P F side ro) ≤
        loadBc (fds_load_side P F side ro) + 1 →
      loadResCode (fds_load_side P F side ro) = .ok) ∧
    ((loadStopReason (fds_load_side P F side ro) = .badSignature ∨
      loadStopReason (fds_load_side P F side ro) = .badSize) →
      loadResCode (fds_load_side P F side ro) = .invalidRom) := by
  cases ho : fds_load_side P F side ro with
  | none => rw [ho] at h; simp at h
  | some v =>
    obtain ⟨res, st, m, r⟩ := v
    have hres : res = expectedLoadResult r (st.blockCount + 1 < m) := by
      have ho' := ho
      unfold fds_load_side at ho'
      split at ho'
      · simp only [Option.some.injEq, Prod.mk.injEq] at ho'
        obtain ⟨h1, h2, h3, h4⟩ := ho'
        subst h1; subst h2; subst h3; subst h4
        rfl
      · exact loadLoop_taxonomy P F _ _ _ _ _ _ _ _ ho'
    simp only [loadResCode, loadBc, loadMinB, loadStopReason, loadObs, ho]
    subst hres
    refine ⟨?_, ?_, ?_, ?_⟩
    · rintro (hr | hr) hlt <;> subst hr <;>
        (simp only [expectedLoadResult]; rw [if_pos hlt])
    · rintro (hr | hr) hlt <;> subst hr <;>
        (simp only [expectedLoadResult]; rw [if_pos hlt])
    · rintro (hr | hr | hr | hr) hle <;> subst hr <;>
        (simp only [expectedLoadResult]; rw [if_neg (by omega)])
    · rintro (hr | hr) <;> subst hr <;> rfl

/-- **C6 counterexample** — the 100-byte `FcTrunc` file (disk-info block
with `file_count` 1, so `min_blocks = 4`, followed by a file-header block
and junk) stops the loop at a kind mismatch with `block_count = 3 <
min_blocks = 4`; the claim as stated demands `FDSR_INVALID_ROM`, but the
code's `block_count + 1 < min_blocks` test (`4 < 4`) fails, so the load
is accepted with `FDSR_OK`. -/
theorem load_taxonomy_counterexample :
    loadObs (fds_load_side Pc FcTrunc 0 false) =
      (.ok, 3, 4, .kindMismatch) ∧ FR.ok ≠ FR.invalidRom := by
  constructor
  · simp [loadObs, fds_load_side, loadLoop, loadIterRest, gapZeroLoop,
      signatureOk, readInto, fds_get_block_size, payloadSizeOf,
      gapBytesFor, extractRaw, fds_crc, crcBitUpd, hvcSignature, upd, rd,
      baseSt, Pc, FcTrunc, nat_and_one, nat_and_255, Nat.min_def,
      List.range_succ, List.getD_eq_getElem?_getD]
  · simp

/-- A concrete run of the taxonomy: loading the valid two-block `Fc`
image stops at a kind mismatch with `block_count = 2` and `min_blocks =
2`, and the acceptance clause gives `FDSR_OK`. -/
theorem load_failure_taxonomy_witness :
    (fds_load_side Pc Fc 0 false).isSome = true ∧
    loadResCode (fds_load_side Pc Fc 0 false) = .ok := by
  have hobs : loadObs (fds_load_side Pc Fc 0 false) =
      (.ok, 2, 2, .kindMismatch) := by
    simp [loadObs, fds_load_side, loadLoop, loadIterRest, gapZeroLoop,
      signatureOk, readInto, fds_get_block_size, payloadSizeOf,
      gapBytesFor, extractRaw, fds_crc, crcBitUpd, hvcSignature, upd, rd,
      baseSt, Pc, Fc, nat_and_one, nat_and_255, Nat.min_def,
      List.range_succ, List.getD_eq_getElem?_getD]
  have hs : (fds_load_side Pc Fc 0 false).isSome = true := by
    cases ho : fds_load_side Pc Fc 0 false with
    | none => rw [ho] at hobs; simp [loadObs] at hobs
    | some v => rfl
  refine ⟨hs, ?_⟩
  exact (load_failure_taxonomy Pc Fc 0 false hs).2.2.1
    (Or.inr (Or.inr (Or.inr (by
      simp only [loadStopReason, hobs]))))
    (by simp only [loadMinB, loadBc, hobs]; omega)

/-! ## C3: the block-index invariant -/

theorem payloadSizeOf_pos (P : FdsParams) (raw offs : Nat → Nat)
    (i : Nat) : 1 ≤ payloadSizeOf P raw offs i := by
  unfold payloadSizeOf
  repeat' split
  all_goals omega

theorem payloadSizeOf_even (P : FdsParams) (raw offs : Nat → Nat) (i : Nat)
    (h : i % 2 = 0) :
    16 ≤ payloadSizeOf P raw offs i ∧ payloadSizeOf P raw offs i ≤ 56 := by
  unfold payloadSizeOf
  split_ifs with h0 h1 h2 <;> omega

theorem offsSum_mono (P : FdsParams) (raw offs : Nat → Nat) :
    ∀ m n, m ≤ n → offsSum P raw offs m ≤ offsSum P raw offs n := by
  intro m n h
  induction n with
  | zero =>
    have : m = 0 := by omega
    subst this
    exact Nat.le_refl _
  | succ n ih =>
    rcases Nat.lt_or_ge m (n + 1) with hlt | hge
    · exact Nat.le_trans (ih (by omega)) (Nat.le_add_right _ _)
    · have : m = n + 1 := by omega
      subst this
      exact Nat.le_refl _

theorem blockTotalSizeSpec_ge (P : FdsParams) (raw offs : Nat → Nat)
    (i : Nat) :
    gapBytesFor P i + 3 ≤ blockTotalSizeSpec P raw offs i := by
  have := payloadSizeOf_pos P raw offs i
  unfold blockTotalSizeSpec
  omega

theorem code_total_eq_spec (P : FdsParams) (raw offs : Nat → Nat) (i : Nat)
    (h : blockTotalSizeSpec P raw offs i < 65536) :
    fds_get_block_size P raw offs i true true =
      blockTotalSizeSpec P raw offs i := by
  unfold fds_get_block_size
  unfold blockTotalSizeSpec at h ⊢
  simp only [if_pos rfl]
  exact Nat.mod_eq_of_lt h

/-- The raw-byte stability of `offsSum`: re-laying the gap of block `cur`
(any writes inside `[offsSum cur, offsSum cur + gap cur)`), together with
arbitrary writes at or past `offsSum n`, does not change any block size
read by `offsSum m` for `m ≤ n`, because the data-size field of a file
data block lives inside the preceding file-header block's payload. -/
theorem offsSum_stable (P : FdsParams) (raw raw' offs offs' : Nat → Nat)
    (n cur : Nat)
    (hE : ∀ i, i < n → offs i = offsSum P raw offs i)
    (hoffs : ∀ i, i < n → offs' i = offs i)
    (h1 : ∀ k, k < offsSum P raw offs cur → raw' k = raw k)
    (h2 : ∀ k, offsSum P raw offs cur + gapBytesFor P cur ≤ k →
        k < offsSum P raw offs n → raw' k = raw k) :
    ∀ m, m ≤ n → offsSum P raw' offs' m = offsSum P raw offs m := by
  intro m
  induction m with
  | zero => intro _; rfl
  | succ m hmih =>
    intro hm
    have ihm := hmih (by omega)
    have hpay : payloadSizeOf P raw' offs' m = payloadSizeOf P raw offs m := by
      by_cases hm0 : m = 0
      · subst hm0; rfl
      by_cases hm1 : m = 1
      · subst hm1; rfl
      by_cases hm2 : m % 2 = 0
      · unfold payloadSizeOf
        rw [if_neg hm0, if_neg hm1, if_pos hm2, if_neg hm0, if_neg hm1,
          if_pos hm2]
      · -- `m` is an odd index at least 3: the size is read from the
        -- preceding file-header block's payload
        obtain ⟨m', rfl⟩ : ∃ k, m = k + 1 := ⟨m - 1, by omega⟩
        have hm'2 : m' % 2 = 0 := by omega
        have hm'ge : 2 ≤ m' := by omega
        have hexp : ∀ R O : Nat → Nat,
            payloadSizeOf P R O (m' + 1) =
              1 + (R (O m' + P.nextGapsReadBits / 8 + 0x0D) |||
                   R (O m' + P.nextGapsReadBits / 8 + 0x0E) <<< 8) := by
          intro R O
          unfold payloadSizeOf
          rw [if_neg (by omega), if_neg (by omega), if_neg (by omega)]
          simp only [Nat.add_sub_cancel]
        have hoffm : offs' m' = offs m' := hoffs _ (by omega)
        have hoffE : offs m' = offsSum P raw offs m' := hE _ (by omega)
        have h16 : payloadSizeOf P raw offs m' = 16 := by
          unfold payloadSizeOf
          rw [if_neg (by omega), if_neg (by omega), if_pos hm'2]
        have hgm' : gapBytesFor P m' = P.nextGapsReadBits / 8 := by
          unfold gapBytesFor
          rw [if_neg (by omega)]
        have hsum1 : offsSum P raw offs (m' + 1) =
            offsSum P raw offs m' + (P.nextGapsReadBits / 8 + 18) := by
          show offsSum P raw offs m' + blockTotalSizeSpec P raw offs m' = _
          unfold blockTotalSizeSpec
          rw [h16, hgm']
        have hup : offsSum P raw offs (m' + 1) ≤ offsSum P raw offs n :=
          offsSum_mono P raw offs (m' + 1) n (by omega)
        have hstab : ∀ d, d < 16 →
            raw' (offs m' + P.nextGapsReadBits / 8 + d) =
              raw (offs m' + P.nextGapsReadBits / 8 + d) := by
          intro d hd
          rcases Nat.lt_or_ge m' cur with hcc | hcc
          · -- the whole block `m' + 1` sits before block `cur`
            apply h1
            have := offsSum_mono P raw offs (m' + 1) cur hcc
            rw [hoffE]
            omega
          · rcases Nat.eq_or_lt_of_le hcc with hcc' | hcc'
            · -- `cur = m'`: the read is inside block `m'`'s payload,
              -- past its own gap
              subst hcc'
              apply h2
              · rw [hoffE, hgm']
                omega
              · rw [hoffE]
                omega
            · -- `cur < m'`: the read is past the end of block `cur`
              apply h2
              · have h3 := blockTotalSizeSpec_ge P raw offs cur
                have h4 := offsSum_mono P raw offs (cur + 1) m' hcc'
                have h5 : offsSum P raw offs (cur + 1) =
                    offsSum P raw offs cur +
                      blockTotalSizeSpec P raw offs cur := rfl
                rw [hoffE]
                omega
              · rw [hoffE]
                omega
        rw [hexp raw' offs', hexp raw offs, hoffm, hstab 13 (by omega),
          hstab 14 (by omega)]
    have htot : blockTotalSizeSpec P raw' offs' m =
        blockTotalSizeSpec P raw offs m := by
      unfold blockTotalSizeSpec
      rw [hpay]
    show offsSum P raw' offs' m + blockTotalSizeSpec P raw' offs' m =
      offsSum P raw offs m + blockTotalSizeSpec P raw offs m
    rw [ihm, htot]

/-- The block-walk loop of `fds_reset_writing` either stops at an
existing block index (leaving the state untouched) or appends a fresh
block record after the last one. -/
theorem findCurrentBlock_spec (P : FdsParams) (st : Fds) :
    ∀ c i, (∃ j, i ≤ j ∧ j < i + c ∧ findCurrentBlock P st i c = (st, j)) ∨
      findCurrentBlock P st i c =
        ({ st with
           blockOffsets := upd st.blockOffsets (i + c)
             (if i + c = 0 then 0
              else st.blockOffsets (i + c - 1) +
                fds_get_block_size P st.raw st.blockOffsets (i + c - 1)
                  true true),
           blockCount := st.blockCount + 1 }, i + c) := by
  intro c
  induction c with
  | zero =>
    intro i
    right
    show ({ st with
            blockOffsets := upd st.blockOffsets i
              (if i = 0 then 0
               else st.blockOffsets (i - 1) +
                 fds_get_block_size P st.raw st.blockOffsets (i - 1)
                   true true),
            blockCount := st.blockCount + 1 }, i) = _
    rfl
  | succ c ih =>
    intro i
    by_cases hlt : st.currentByte < st.blockOffsets i +
        fds_get_block_size P st.raw st.blockOffsets i true true
    · left
      exact ⟨i, Nat.le_refl i, by omega,
        by show (if st.currentByte < _ then _ else _) = _; rw [if_pos hlt]⟩
    · have hstep : findCurrentBlock P st i (c + 1) =
          findCurrentBlock P st (i + 1) c := by
        show (if st.currentByte < _ then _ else _) = _
        rw [if_neg hlt]
      have harith : i + 1 + c = i + (c + 1) := by omega
      rcases ih (i + 1) with ⟨j, hj1, hj2, hj3⟩ | hap
      · left
        exact ⟨j, by omega, by omega, by rw [hstep, hj3]⟩
      · right
        rw [hstep, hap, harith]

/-- A cell outside `[c, c + g)` is untouched by the gap re-lay (`g - 1`
zeros from `c`, then the terminator). -/
theorem gapLay_untouched (R : Nat → Nat) (c g k : Nat) (hg : 1 ≤ g)
    (hk : k < c ∨ c + g ≤ k) :
    upd (writeZeros R c (g - 1)) (c + (g - 1)) 0x80 k = R k := by
  unfold upd
  rw [if_neg (by omega), writeZeros_apply, if_neg (by omega)]

/-- The cursor/gap tail of `fds_reset_writing` preserves `used_space`,
the FSM state and the offsets equation: its writes stay inside the gap
region of the current block (and, when truncating, past the truncated
table), away from every data-size field. -/
theorem reset_tail_inv (P : FdsParams) (st3 : Fds) (cur : Nat)
    (hg1 : 1 ≤ P.firstGapReadBits / 8) (hg2 : 1 ≤ P.nextGapsReadBits / 8)
    (hE : ∀ i, i < st3.blockCount →
      st3.blockOffsets i = offsSum P st3.raw st3.blockOffsets i)
    (hc0 : st3.blockOffsets cur = offsSum P st3.raw st3.blockOffsets cur) :
    (∀ i, i < (fds_reset_writing_tail P st3 cur).blockCount →
      (fds_reset_writing_tail P st3 cur).blockOffsets i =
        offsSum P (fds_reset_writing_tail P st3 cur).raw
          (fds_reset_writing_tail P st3 cur).blockOffsets i) ∧
    (fds_reset_writing_tail P st3 cur).usedSpace = st3.usedSpace ∧
    (fds_reset_writing_tail P st3 cur).state = st3.state := by
  have hgg : 1 ≤ gapBytesFor P cur := by
    unfold gapBytesFor
    split <;> assumption
  generalize hfin : fds_reset_writing_tail P st3 cur = out
  simp only [fds_reset_writing_tail, resetGapLay] at hfin
  rw [show (if cur = 0 then P.firstGapReadBits / 8
      else P.nextGapsReadBits / 8) = gapBytesFor P cur from rfl] at hfin
  split at hfin
  · -- the block end wrapped below the block start: release READY, return
    subst hfin
    exact ⟨fun i hi => hE i hi, rfl, rfl⟩
  · split at hfin
    next htr =>
      -- the next block is disaligned: truncate the table, re-lay the gap
      subst hfin
      refine ⟨?_, rfl, rfl⟩
      intro i hi
      dsimp only at hi ⊢
      have h5 : st3.blockOffsets (cur + 1) =
          offsSum P st3.raw st3.blockOffsets (cur + 1) := hE _ htr.1
      have h6 := offsSum_mono P st3.raw st3.blockOffsets cur (cur + 1)
        (by omega)
      have key : ∀ m, m ≤ cur →
          offsSum P
            (upd (writeZeros
              (fun k => if st3.blockOffsets (cur + 1) ≤ k ∧
                  k < P.maxSideSize then 0 else st3.raw k)
              (st3.blockOffsets cur) (gapBytesFor P cur - 1))
              (st3.blockOffsets cur + (gapBytesFor P cur - 1)) 0x80)
            st3.blockOffsets m =
          offsSum P st3.raw st3.blockOffsets m := by
        apply offsSum_stable P st3.raw _ st3.blockOffsets st3.blockOffsets
          cur cur
        · intro i' hi'
          exact hE i' (by omega)
        · intro _ _
          rfl
        · intro k hk
          rw [← hc0] at hk
          rw [gapLay_untouched _ _ _ _ hgg (Or.inl (by omega))]
          show (if st3.blockOffsets (cur + 1) ≤ k ∧ k < P.maxSideSize
            then 0 else st3.raw k) = st3.raw k
          rw [if_neg (by omega)]
        · intro k hk1 hk2
          exact absurd hk2 (by omega)
      rw [key i (by omega)]
      exact hE i (by omega)
    next htr =>
      -- aligned next block: only the gap in front of block `cur` changes
      subst hfin
      refine ⟨?_, rfl, rfl⟩
      intro i hi
      dsimp only at hi ⊢
      have key : ∀ m, m ≤ st3.blockCount →
          offsSum P (upd (writeZeros st3.raw (st3.blockOffsets cur)
              (gapBytesFor P cur - 1))
            (st3.blockOffsets cur + (gapBytesFor P cur - 1)) 0x80)
            st3.blockOffsets m =
          offsSum P st3.raw st3.blockOffsets m := by
        apply offsSum_stable P st3.raw _ st3.blockOffsets st3.blockOffsets
          st3.blockCount cur
        · exact hE
        · intro _ _
          rfl
        · intro k hk
          rw [← hc0] at hk
          rw [gapLay_untouched _ _ _ _ hgg (Or.inl (by omega))]
        · intro k hk1 hk2
          rw [gapLay_untouched _ _ _ _ hgg (Or.inr (by omega))]
      rw [key i (by omega)]
      exact hE i hi

/-- `fds_reset_writing` preserves the offsets equation, and preserves
`used_space ≤ MAX_SIDE_SIZE` except in the overflow branch, which parks
the drive in IDLE (without restoring `used_space`). -/
theorem fds_reset_writing_inv (P : FdsParams) (st : Fds)
    (hMax : P.maxSideSize < 65536)
    (hg1 : 1 ≤ P.firstGapReadBits / 8) (hg2 : 1 ≤ P.nextGapsReadBits / 8)
    (hE : offsetsOk P st)
    (hU : st.usedSpace = offsSum P st.raw st.blockOffsets st.blockCount)
    (hM : st.usedSpace ≤ P.maxSideSize) :
    offsetsOk P (fds_reset_writing P st) ∧
    ((fds_reset_writing P st).usedSpace ≤ P.maxSideSize ∨
      (fds_reset_writing P st).state = .idle) := by
  have hTb : ∀ i, i < st.blockCount →
      blockTotalSizeSpec P st.raw st.blockOffsets i < 65536 := by
    intro i hi
    have h1 : offsSum P st.raw st.blockOffsets (i + 1) =
        offsSum P st.raw st.blockOffsets i +
          blockTotalSizeSpec P st.raw st.blockOffsets i := rfl
    have h2 := offsSum_mono P st.raw st.blockOffsets (i + 1) st.blockCount
      hi
    omega
  have hcode : ∀ i, i < st.blockCount →
      fds_get_block_size P st.raw st.blockOffsets i true true =
        blockTotalSizeSpec P st.raw st.blockOffsets i := fun i hi =>
    code_total_eq_spec P st.raw st.blockOffsets i (hTb i hi)
  generalize hout : fds_reset_writing P st = out
  simp only [fds_reset_writing] at hout
  rcases findCurrentBlock_spec P st st.blockCount 0 with ⟨j, hj0, hj2, hj3⟩ | hap
  · -- the cursor sits inside existing block `j`
    simp only [Nat.zero_add] at hj2
    rw [hj3] at hout
    dsimp only at hout
    have husedeq : st.blockOffsets (st.blockCount - 1) +
        fds_get_block_size P st.raw st.blockOffsets (st.blockCount - 1)
          true true = st.usedSpace := by
      have hb1 : st.blockCount - 1 < st.blockCount := by omega
      rw [hcode _ hb1, hE _ hb1, hU]
      have hbb : st.blockCount - 1 + 1 = st.blockCount := by omega
      conv_rhs => rw [← hbb]
      rfl
    rw [husedeq] at hout
    rw [if_neg (by omega)] at hout
    have hout2 : fds_reset_writing_tail P st j = out := hout
    have hkey := reset_tail_inv P st j hg1 hg2 (fun i hi => hE i hi)
      (hE j hj2)
    rw [hout2] at hkey
    exact ⟨fun i hi => hkey.1 i hi, Or.inl (by rw [hkey.2.1]; exact hM)⟩
  · -- the cursor sits past the last block: a record is appended
    simp only [Nat.zero_add] at hap
    rw [hap] at hout
    dsimp only at hout
    simp only [Nat.add_sub_cancel] at hout
    rw [upd_self] at hout
    have hvA : (if st.blockCount = 0 then 0
        else st.blockOffsets (st.blockCount - 1) +
          fds_get_block_size P st.raw st.blockOffsets (st.blockCount - 1)
            true true) =
        offsSum P st.raw st.blockOffsets st.blockCount := by
      by_cases hbc0 : st.blockCount = 0
      · rw [if_pos hbc0, hbc0]
        rfl
      · rw [if_neg hbc0]
        have hb1 : st.blockCount - 1 < st.blockCount := by omega
        rw [hcode _ hb1, hE _ hb1]
        have hbb : st.blockCount - 1 + 1 = st.blockCount := by omega
        conv_rhs => rw [← hbb]
        rfl
    rw [hvA] at hout
    have hoffs2 : ∀ i, i < st.blockCount →
        upd st.blockOffsets st.blockCount
          (offsSum P st.raw st.blockOffsets st.blockCount) i =
        st.blockOffsets i :=
      fun i hi => upd_other _ _ _ _ (by omega)
    have hstable0 : ∀ m, m ≤ st.blockCount →
        offsSum P st.raw
          (upd st.blockOffsets st.blockCount
            (offsSum P st.raw st.blockOffsets st.blockCount)) m =
        offsSum P st.raw st.blockOffsets m := by
      apply offsSum_stable P st.raw st.raw st.blockOffsets _
        st.blockCount st.blockCount (fun i hi => hE i hi) hoffs2
        (fun _ _ => rfl) (fun _ _ _ => rfl)
    have hEA : ∀ i, i < st.blockCount + 1 →
        upd st.blockOffsets st.blockCount
          (offsSum P st.raw st.blockOffsets st.blockCount) i =
        offsSum P st.raw
          (upd st.blockOffsets st.blockCount
            (offsSum P st.raw st.blockOffsets st.blockCount)) i := by
      intro i hi
      rcases Nat.lt_or_ge i st.blockCount with hlt | hge
      · rw [hoffs2 i hlt, hstable0 i (Nat.le_of_lt hlt)]
        exact hE i hlt
      · have : i = st.blockCount := by omega
        subst this
        rw [upd_self, hstable0 st.blockCount (Nat.le_refl _)]
    split at hout
    · -- recomputed `used_space` overflows: stop, drop the new block
      subst hout
      have hkey := reset_tail_inv P
        (fds_stop
          { st with
            blockOffsets := upd st.blockOffsets st.blockCount
              (offsSum P st.raw st.blockOffsets st.blockCount),
            blockCount := st.blockCount,
            usedSpace :=
              offsSum P st.raw st.blockOffsets st.blockCount +
              fds_get_block_size P st.raw
                (upd st.blockOffsets st.blockCount
                  (offsSum P st.raw st.blockOffsets st.blockCount))
                st.blockCount true true })
        st.blockCount hg1 hg2
        (fun i' hi' => hEA i' (Nat.lt_succ_of_lt hi'))
        (hEA st.blockCount (Nat.lt_succ_self _))
      exact ⟨fun i hi => hkey.1 i hi, Or.inr (hkey.2.2.trans rfl)⟩
    · -- the appended block still fits
      rename_i hov
      subst hout
      have hkey := reset_tail_inv P
        ({ st with
           blockOffsets := upd st.blockOffsets st.blockCount
             (offsSum P st.raw st.blockOffsets st.blockCount),
           blockCount := st.blockCount + 1,
           usedSpace :=
             offsSum P st.raw st.blockOffsets st.blockCount +
             fds_get_block_size P st.raw
               (upd st.blockOffsets st.blockCount
                 (offsSum P st.raw st.blockOffsets st.blockCount))
               st.blockCount true true })
        st.blockCount hg1 hg2
        (fun i' hi' => hEA i' hi')
        (hEA st.blockCount (Nat.lt_succ_self _))
      exact ⟨fun i hi => hkey.1 i hi,
        Or.inl (hkey.2.1.trans_le (Nat.le_of_not_lt hov))⟩

theorem rd_lt (F : List Nat) (hFb : ∀ b ∈ F, b < 256) (i : Nat) :
    rd F i < 256 := by
  unfold rd
  rcases Nat.lt_or_ge i F.length with h | h
  · rw [List.getD_eq_getElem F 0 h]
    exact hFb _ (List.getElem_mem h)
  · unfold List.getD
    rw [List.get?_eq_none.mpr h]
    exact (by omega : (0:Nat) < 256)

theorem payloadSizeOf_le (P : FdsParams) (raw offs : Nat → Nat) (i : Nat)
    (hB : ∀ k, raw k < 256) : payloadSizeOf P raw offs i ≤ 65536 := by
  unfold payloadSizeOf
  split_ifs
  · omega
  · omega
  · omega
  · have h1 := hB (offs (i - 1) + P.nextGapsReadBits / 8 + 0x0D)
    have h2 := hB (offs (i - 1) + P.nextGapsReadBits / 8 + 0x0E)
    have h3 : raw (offs (i - 1) + P.nextGapsReadBits / 8 + 0x0E) <<< 8 <
        2 ^ 16 := by
      rw [Nat.shiftLeft_eq]
      have he : (2:Nat) ^ 8 = 256 := by norm_num
      have he2 : (2:Nat) ^ 16 = 65536 := by norm_num
      omega
    have h4 : raw (offs (i - 1) + P.nextGapsReadBits / 8 + 0x0D) <
        2 ^ 16 := by
      have he2 : (2:Nat) ^ 16 = 65536 := by norm_num
      omega
    have h5 := Nat.or_lt_two_pow h4 h3
    have he2 : (2:Nat) ^ 16 = 65536 := by norm_num
    omega

/-- Writes at or past `offsSum n` (given the offsets equation below `n`)
do not change any block size read by `payloadSizeOf` at `n`. -/
theorem payloadSizeOf_stable (P : FdsParams) (raw raw' offs : Nat → Nat)
    (n : Nat)
    (hE : ∀ i, i < n → offs i = offsSum P raw offs i)
    (hraw : ∀ k, k < offsSum P raw offs n → raw' k = raw k) :
    payloadSizeOf P raw' offs n = payloadSizeOf P raw offs n := by
  by_cases h0 : n = 0
  · subst h0; rfl
  by_cases h1 : n = 1
  · subst h1; rfl
  by_cases h2 : n % 2 = 0
  · unfold payloadSizeOf
    rw [if_neg h0, if_neg h1, if_pos h2, if_neg h0, if_neg h1, if_pos h2]
  · obtain ⟨m', rfl⟩ : ∃ k, n = k + 1 := ⟨n - 1, by omega⟩
    have hm'2 : m' % 2 = 0 := by omega
    have hm'ge : 2 ≤ m' := by omega
    have hexp : ∀ R : Nat → Nat,
        payloadSizeOf P R offs (m' + 1) =
          1 + (R (offs m' + P.nextGapsReadBits / 8 + 0x0D) |||
               R (offs m' + P.nextGapsReadBits / 8 + 0x0E) <<< 8) := by
      intro R
      unfold payloadSizeOf
      rw [if_neg (by omega), if_neg (by omega), if_neg (by omega)]
      simp only [Nat.add_sub_cancel]
    have hoffE : offs m' = offsSum P raw offs m' := hE _ (by omega)
    have h16 : payloadSizeOf P raw offs m' = 16 := by
      unfold payloadSizeOf
      rw [if_neg (by omega), if_neg (by omega), if_pos hm'2]
    have hgm' : gapBytesFor P m' = P.nextGapsReadBits / 8 := by
      unfold gapBytesFor
      rw [if_neg (by omega)]
    have hsum1 : offsSum P raw offs (m' + 1) =
        offsSum P raw offs m' + (P.nextGapsReadBits / 8 + 18) := by
      show offsSum P raw offs m' + blockTotalSizeSpec P raw offs m' = _
      unfold blockTotalSizeSpec
      rw [h16, hgm']
    rw [hexp raw', hexp raw,
      hraw _ (by rw [hoffE, hsum1]; omega),
      hraw _ (by rw [hoffE, hsum1]; omega)]

theorem fds_get_block_size_ff (P : FdsParams) (raw offs : Nat → Nat)
    (i : Nat) :
    fds_get_block_size P raw offs i false false =
      payloadSizeOf P raw offs i % 65536 := by
  unfold fds_get_block_size
  simp

theorem payloadSum_offsSum (P : FdsParams) (raw offs : Nat → Nat) :
    ∀ m, offsSum P raw offs m =
      payloadSum P raw offs m + gapSum P m + 2 * m := by
  intro m
  induction m with
  | zero => rfl
  | succ m ih =>
    have e1 : offsSum P raw offs (m + 1) = offsSum P raw offs m +
        (gapBytesFor P m + payloadSizeOf P raw offs m + 2) := rfl
    have e2 : payloadSum P raw offs (m + 1) = payloadSum P raw offs m +
        payloadSizeOf P raw offs m := rfl
    have e3 : gapSum P (m + 1) = gapSum P m + gapBytesFor P m := rfl
    omega

theorem payloadSizeOf_congr_offs (P : FdsParams) (raw : Nat → Nat)
    (offs offs' : Nat → Nat) (j : Nat)
    (ho : offs' (j - 1) = offs (j - 1)) :
    payloadSizeOf P raw offs' j = payloadSizeOf P raw offs j := by
  unfold payloadSizeOf
  split_ifs
  · rfl
  · rfl
  · rfl
  · rw [ho]

theorem payloadSum_congr_offs (P : FdsParams) (raw : Nat → Nat)
    (offs offs' : Nat → Nat) :
    ∀ m, (∀ i, i < m → offs' i = offs i) →
      payloadSum P raw offs' m = payloadSum P raw offs m := by
  intro m
  induction m with
  | zero => intro _; rfl
  | succ m ih =>
    intro ho
    have e2 : ∀ R : Nat → Nat, payloadSum P raw R (m + 1) =
        payloadSum P raw R m + payloadSizeOf P raw R m := fun _ => rfl
    rw [e2, e2, ih (fun i hi => ho i (by omega))]
    by_cases hm0 : m = 0
    · subst hm0
      rfl
    · rw [payloadSizeOf_congr_offs P raw offs offs' m
        (ho (m - 1) (by omega))]

/-- Writing a region of a file back to the same position is the identity
(`f_write` semantics). -/
theorem writeAt_id (F : List Nat) (p : Nat) (bs : List Nat)
    (hlen : p + bs.length ≤ F.length)
    (hb : ∀ u, u < bs.length → rd bs u = rd F (p + u)) :
    writeAt F p bs = F := by
  apply List.ext_getElem
  · rw [writeAt_length]
    omega
  · intro k h1 h2
    have e1 : (writeAt F p bs)[k] = rd (writeAt F p bs) k := by
      unfold rd
      exact (List.getD_eq_getElem _ 0 h1).symm
    have e2 : F[k] = rd F k := by
      unfold rd
      exact (List.getD_eq_getElem _ 0 h2).symm
    rw [e1, e2, rd_writeAt]
    split
    · rename_i hin
      rw [hb (k - p) (by omega)]
      congr 1
      omega
    · rfl

/-- If every byte the save loop is about to write already equals the file
byte at its destination, the loop leaves the file unchanged. -/
theorem saveWriteLoop_id (P : FdsParams) (raw offs : Nat → Nat)
    (F : List Nat) :
    ∀ c p i,
      (∀ t, t < c → ∀ u,
        u < fds_get_block_size P raw offs (i + t) false false →
        raw (offs (i + t) + gapBytesFor P (i + t) + u) =
          rd F (p + codePayloadSumFrom P raw offs i t + u)) →
      p + codePayloadSumFrom P raw offs i c ≤ F.length →
      saveWriteLoop P raw offs F p i c = F := by
  intro c
  induction c with
  | zero => intro p i _ _; rfl
  | succ c ih =>
    intro p i hprov hlen
    have hbs : (extractRaw raw (offs i + gapBytesFor P i)
        (fds_get_block_size P raw offs i false false)).length =
        fds_get_block_size P raw offs i false false :=
      extractRaw_length ..
    have hsum := codePayloadSumFrom_succ_left P raw offs c i
    have hW : writeAt F p (extractRaw raw (offs i + gapBytesFor P i)
        (fds_get_block_size P raw offs i false false)) = F := by
      apply writeAt_id
      · rw [hbs]
        omega
      · intro u hu
        rw [hbs] at hu
        rw [rd_extractRaw _ _ _ u hu]
        have h5 := hprov 0 (by omega) u (by
          show u < fds_get_block_size P raw offs (i + 0) false false
          exact hu)
        have e0 : codePayloadSumFrom P raw offs i 0 = 0 := rfl
        rw [e0] at h5
        show raw (offs (i + 0) + gapBytesFor P (i + 0) + u) = rd F (p + u)
        rw [h5]
        congr 1
    have hstep : saveWriteLoop P raw offs F p i (c + 1) =
        saveWriteLoop P raw offs
          (writeAt F p (extractRaw raw (offs i + gapBytesFor P i)
            (fds_get_block_size P raw offs i false false)))
          (p + (extractRaw raw (offs i + gapBytesFor P i)
            (fds_get_block_size P raw offs i false false)).length)
          (i + 1) c := rfl
    rw [hstep, hW, hbs]
    apply ih
    · intro t ht u hu
      have e1 : i + (t + 1) = i + 1 + t := by omega
      have h5 := hprov (t + 1) (by omega) u (by rw [e1]; exact hu)
      rw [e1] at h5
      rw [codePayloadSumFrom_succ_left] at h5
      have e2 : p + (fds_get_block_size P raw offs i false false +
          codePayloadSumFrom P raw offs (i + 1) t) + u =
          p + fds_get_block_size P raw offs i false false +
            codePayloadSumFrom P raw offs (i + 1) t + u := by omega
      rw [e2] at h5
      exact h5
    · omega

theorem codePayloadSum_eq (P : FdsParams) (raw offs : Nat → Nat) :
    ∀ c, (∀ j, j < c → payloadSizeOf P raw offs j < 65536) →
      codePayloadSumFrom P raw offs 0 c = payloadSum P raw offs c := by
  intro c
  induction c with
  | zero => intro _; rfl
  | succ c ih =>
    intro hb
    have e1 : codePayloadSumFrom P raw offs 0 (c + 1) =
        codePayloadSumFrom P raw offs 0 c +
        fds_get_block_size P raw offs (0 + c) false false := rfl
    have e2 : payloadSum P raw offs (c + 1) = payloadSum P raw offs c +
        payloadSizeOf P raw offs c := rfl
    rw [e1, e2, ih (fun j hj => hb j (by omega)), Nat.zero_add,
      fds_get_block_size_ff, Nat.mod_eq_of_lt (hb c (by omega))]

/-- One iteration of the load loop preserves the C3 invariant: whatever
the exit, the offsets equation holds and `used_space` stays within the
side buffer; the recursive call re-enters with the full `LoadInv`. -/
theorem loadIterRest_inv (P : FdsParams) (F : List Nat)
    (next : Fds → Nat → Nat → Option (FR × Fds × Nat × StopReason))
    (st : Fds) (gap : Nat) (raw2 : Nat → Nat) (used2 pos minB : Nat)
    (res : FR) (st' : Fds) (minB' : Nat) (r : StopReason) (p0 : Nat)
    (hFb : ∀ b ∈ F, b < 256)
    (hgap : gap = gapBytesFor P st.blockCount)
    (hgap1 : 1 ≤ gap)
    (hraw2 : ∀ k, raw2 k =
      if st.usedSpace ≤ k ∧ k < st.usedSpace + (gap - 1) then 0
      else st.raw k)
    (hused2 : used2 = st.usedSpace + (gap - 1))
    (hmax : st.usedSpace + gap ≤ P.maxSideSize)
    (hE : offsetsOk P st)
    (hU : st.usedSpace = offsSum P st.raw st.blockOffsets st.blockCount)
    (hZ : ∀ k, st.usedSpace ≤ k → st.raw k = 0)
    (hB : ∀ k, st.raw k < 256)
    (hOadd : st.blockOffsets st.blockCount = st.usedSpace)
    (hPp : pos = p0 + payloadSum P st.raw st.blockOffsets st.blockCount)
    (hPl : pos ≤ F.length)
    (hPj : ∀ j, j < st.blockCount →
      ∀ t, t < payloadSizeOf P st.raw st.blockOffsets j →
        st.raw (st.blockOffsets j + gapBytesFor P j + t) =
          rd F (p0 + payloadSum P st.raw st.blockOffsets j + t))
    (hnext : ∀ st2 pos2 minB2 res2 st2' minB2' r2, LoadInv P st2 →
      LoadProv P F p0 st2 pos2 →
      next st2 pos2 minB2 = some (res2, st2', minB2', r2) →
      LoadOut P F p0 res2 st2')
    (h : loadIterRest P F next st gap raw2 used2 pos minB =
      some (res, st', minB', r)) :
    LoadOut P F p0 res st' := by
  have hlow3 : ∀ k, k < st.usedSpace → upd raw2 used2 0x80 k = st.raw k := by
    intro k hk
    rw [upd_other _ _ _ _ (by omega), hraw2, if_neg (by omega)]
  have hzero3 : ∀ k, st.usedSpace + gap ≤ k → upd raw2 used2 0x80 k = 0 := by
    intro k hk
    rw [upd_other _ _ _ _ (by omega), hraw2, if_neg (by omega)]
    exact hZ k (by omega)
  have hbytes3 : ∀ k, upd raw2 used2 0x80 k < 256 := by
    intro k
    unfold upd
    split
    · omega
    · rw [hraw2]
      split
      · omega
      · exact hB k
  have hr3u3 : upd raw2 used2 0x80 (used2 + 1) = 0 :=
    hzero3 _ (by omega)
  have hlow4 : ∀ n k, k < st.usedSpace →
      readInto F pos (upd raw2 used2 0x80) (used2 + 1) n k = st.raw k := by
    intro n k hk
    show (if used2 + 1 ≤ k ∧ k < used2 + 1 + n
      then rd F (pos + (k - (used2 + 1))) else upd raw2 used2 0x80 k) =
      st.raw k
    rw [if_neg (by omega)]
    exact hlow3 k hk
  have hlowU : ∀ (X : Nat → Nat), (∀ k, k < st.usedSpace → X k = st.raw k) →
      ∀ a v, st.usedSpace ≤ a →
      ∀ k, k < st.usedSpace → upd X a v k = st.raw k := by
    intro X hX a v ha k hk
    rw [upd_other _ _ _ _ (by omega)]
    exact hX k hk
  have hstabS : ∀ (X : Nat → Nat),
      (∀ k, k < st.usedSpace → X k = st.raw k) →
      ∀ m, m ≤ st.blockCount →
      offsSum P X st.blockOffsets m =
        offsSum P st.raw st.blockOffsets m := by
    intro X hX
    apply offsSum_stable P st.raw X st.blockOffsets st.blockOffsets
      st.blockCount st.blockCount (fun i hi => hE i hi) (fun _ _ => rfl)
    · intro k hk
      exact hX k (by omega)
    · intro k hk1 hk2
      exact absurd hk2 (by omega)
  have hstab : ∀ (X : Nat → Nat),
      (∀ k, k < st.usedSpace → X k = st.raw k) →
      ∀ i, i < st.blockCount →
      st.blockOffsets i = offsSum P X st.blockOffsets i := by
    intro X hX i hi
    rw [hstabS X hX i (Nat.le_of_lt hi)]
    exact hE i hi
  have hbri : ∀ n k,
      readInto F pos (upd raw2 used2 0x80) (used2 + 1) n k < 256 := by
    intro n k
    show (if used2 + 1 ≤ k ∧ k < used2 + 1 + n
      then rd F (pos + (k - (used2 + 1))) else upd raw2 used2 0x80 k) < 256
    split
    · exact rd_lt F hFb _
    · exact hbytes3 k
  have hbup : ∀ (X : Nat → Nat) a v, (∀ k, X k < 256) → v < 256 →
      ∀ k, upd X a v k < 256 := by
    intro X a v hX hv k
    unfold upd
    split
    · exact hv
    · exact hX k
  have hand255 : ∀ x : Nat, x &&& 255 < 256 := by
    intro x
    rw [nat_and_255]
    omega
  have hsizeSt : ∀ (X : Nat → Nat),
      (∀ k, k < st.usedSpace → X k = st.raw k) →
      ∀ j, j ≤ st.blockCount →
      payloadSizeOf P X st.blockOffsets j =
        payloadSizeOf P st.raw st.blockOffsets j := by
    intro X hX j hj
    apply payloadSizeOf_stable P st.raw X st.blockOffsets j
      (fun i hi => hE i (by omega))
    intro k hk
    have hmono := offsSum_mono P st.raw st.blockOffsets j st.blockCount hj
    exact hX k (by omega)
  have hpaySt : ∀ (X : Nat → Nat),
      (∀ k, k < st.usedSpace → X k = st.raw k) →
      ∀ m, m ≤ st.blockCount →
      payloadSum P X st.blockOffsets m =
        payloadSum P st.raw st.blockOffsets m := by
    intro X hX m hm
    have e1 := payloadSum_offsSum P X st.blockOffsets m
    have e2 := payloadSum_offsSum P st.raw st.blockOffsets m
    have e3 := hstabS X hX m hm
    omega
  have haddr : ∀ j, j < st.blockCount →
      ∀ t, t < payloadSizeOf P st.raw st.blockOffsets j →
      st.blockOffsets j + gapBytesFor P j + t < st.usedSpace := by
    intro j hj t ht
    have e1 : offsSum P st.raw st.blockOffsets (j + 1) =
        offsSum P st.raw st.blockOffsets j +
        (gapBytesFor P j + payloadSizeOf P st.raw st.blockOffsets j + 2) :=
      rfl
    have e2 := offsSum_mono P st.raw st.blockOffsets (j + 1) st.blockCount
      hj
    have e3 := hE j hj
    omega
  have hexitAll : ∀ (X : Nat → Nat),
      (∀ k, k < st.usedSpace → X k = st.raw k) →
      ∀ (Y : Nat) (rc : FR), Y ≤ P.maxSideSize →
      (rc = .ok → Y = st.usedSpace) →
      LoadOut P F p0 rc { st with raw := X, usedSpace := Y } := by
    intro X hX Y rc hYle hYok
    refine ⟨fun i hi => hstab X hX i hi, hYle, ?_, ?_, ?_⟩
    · intro hok
      have e := hYok hok
      show Y = offsSum P X st.blockOffsets st.blockCount
      rw [hstabS X hX st.blockCount (Nat.le_refl _), ← hU]
      exact e
    · intro j hj t ht
      have hj' : j < st.blockCount := hj
      have hsz := hsizeSt X hX j (Nat.le_of_lt hj')
      have ht2 : t < payloadSizeOf P X st.blockOffsets j := ht
      have ht' : t < payloadSizeOf P st.raw st.blockOffsets j := by omega
      show X (st.blockOffsets j + gapBytesFor P j + t) =
        rd F (p0 + payloadSum P X st.blockOffsets j + t)
      rw [hpaySt X hX j (Nat.le_of_lt hj'), hX _ (haddr j hj' t ht')]
      exact hPj j hj' t ht'
    · show p0 + payloadSum P X st.blockOffsets st.blockCount ≤ F.length
      rw [hpaySt X hX st.blockCount (Nat.le_refl _)]
      omega
  simp only [loadIterRest] at h
  repeat' split at h
  all_goals
    first
      | -- an exit leaf: a record with rewritten raw/used is returned
        (simp only [Option.some.injEq, Prod.mk.injEq] at h
         obtain ⟨h1, h2, h3, h4⟩ := h
         subst h1
         subst h2
         first
           | exact hexitAll _ hlow3 _ _ (by omega)
               (fun hok => by cases hok <;> omega)
           | exact hexitAll _ (hlowU _ hlow3 _ _ (by omega)) _ _
               (by omega) (fun hok => by cases hok <;> omega)
           | exact hexitAll _ (hlow4 _) _ _ (by omega)
               (fun hok => by cases hok <;> omega)
           | exact hexitAll _ (hlowU _ (hlow4 _) _ _ (by omega)) _ _
               (by omega) (fun hok => by cases hok <;> omega))
      | -- the continue leaf: the block together with its CRC is appended
        (have hsz : used2 + 1 + fds_get_block_size P (upd raw2 used2 0x80)
            st.blockOffsets st.blockCount false false + 2 ≤
            P.maxSideSize := by omega
         have hbr : min (fds_get_block_size P (upd raw2 used2 0x80)
             st.blockOffsets st.blockCount false false) (F.length - pos) =
             fds_get_block_size P (upd raw2 used2 0x80) st.blockOffsets
               st.blockCount false false := by omega
         have htagne : readInto F pos (upd raw2 used2 0x80) (used2 + 1)
             (min (fds_get_block_size P (upd raw2 used2 0x80)
               st.blockOffsets st.blockCount false false)
               (F.length - pos)) (used2 + 1) ≠ 0 := by
           have hta : (if st.blockCount = 0 then 1
               else if st.blockCount = 1 then 2
               else if st.blockCount % 2 = 0 then 3 else 4) ≠ 0 := by
             split_ifs <;> omega
           omega
         have hb0 : fds_get_block_size P (upd raw2 used2 0x80)
             st.blockOffsets st.blockCount false false ≠ 0 := by
           intro hb0
           apply htagne
           show (if used2 + 1 ≤ used2 + 1 ∧ used2 + 1 < used2 + 1 +
               (min (fds_get_block_size P (upd raw2 used2 0x80)
                 st.blockOffsets st.blockCount false false)
                 (F.length - pos))
             then rd F (pos + (used2 + 1 - (used2 + 1)))
             else upd raw2 used2 0x80 (used2 + 1)) = 0
           rw [if_neg (by omega)]
           exact hr3u3
         have hple := payloadSizeOf_le P (upd raw2 used2 0x80)
           st.blockOffsets st.blockCount hbytes3
         have hfe := fds_get_block_size_ff P (upd raw2 used2 0x80)
           st.blockOffsets st.blockCount
         have hbsp : fds_get_block_size P (upd raw2 used2 0x80)
             st.blockOffsets st.blockCount false false =
             payloadSizeOf P (upd raw2 used2 0x80) st.blockOffsets
               st.blockCount := by omega
         have hp3 : payloadSizeOf P (upd raw2 used2 0x80) st.blockOffsets
             st.blockCount =
             payloadSizeOf P st.raw st.blockOffsets st.blockCount :=
           payloadSizeOf_stable P st.raw _ st.blockOffsets st.blockCount
             (fun i hi => hE i hi) (fun k hk => hlow3 k (by omega))
         have hinv2 : ∀ X : Nat → Nat,
             (∀ k, k < st.usedSpace → X k = st.raw k) →
             used2 + 1 + fds_get_block_size P (upd raw2 used2 0x80)
               st.blockOffsets st.blockCount false false + 2 =
             offsSum P X st.blockOffsets (st.blockCount + 1) := by
           intro X hX
           have e2 : offsSum P X st.blockOffsets (st.blockCount + 1) =
               offsSum P X st.blockOffsets st.blockCount +
               (gapBytesFor P st.blockCount +
                payloadSizeOf P X st.blockOffsets st.blockCount + 2) := rfl
           have e3 := hstabS X hX st.blockCount (Nat.le_refl _)
           have e4 := payloadSizeOf_stable P st.raw X st.blockOffsets
             st.blockCount (fun i hi => hE i hi)
             (fun k hk => hX k (by omega))
           omega
         have hfin2 : ∀ X : Nat → Nat,
             (∀ k, k < st.usedSpace → X k = st.raw k) →
             pos + fds_get_block_size P (upd raw2 used2 0x80)
               st.blockOffsets st.blockCount false false =
             p0 + payloadSum P X st.blockOffsets (st.blockCount + 1) := by
           intro X hX
           have e1 : payloadSum P X st.blockOffsets (st.blockCount + 1) =
               payloadSum P X st.blockOffsets st.blockCount +
               payloadSizeOf P X st.blockOffsets st.blockCount := rfl
           have e2 := hpaySt X hX st.blockCount (Nat.le_refl _)
           have e3 := hsizeSt X hX st.blockCount (Nat.le_refl _)
           omega
         have hnew6 : ∀ v1 v2 t,
             t < fds_get_block_size P (upd raw2 used2 0x80)
               st.blockOffsets st.blockCount false false →
             upd (upd (readInto F pos (upd raw2 used2 0x80) (used2 + 1)
                 (fds_get_block_size P (upd raw2 used2 0x80)
                   st.blockOffsets st.blockCount false false))
               (used2 + 1 + fds_get_block_size P (upd raw2 used2 0x80)
                 st.blockOffsets st.blockCount false false) v1)
               (used2 + 1 + fds_get_block_size P (upd raw2 used2 0x80)
                 st.blockOffsets st.blockCount false false + 1) v2
               (st.usedSpace + gap + t) = rd F (pos + t) := by
           intro v1 v2 t ht
           rw [show st.usedSpace + gap + t = used2 + 1 + t from by omega]
           rw [upd_other _ _ _ _ (by omega), upd_other _ _ _ _ (by omega)]
           show (if used2 + 1 ≤ used2 + 1 + t ∧ used2 + 1 + t < used2 + 1 +
               fds_get_block_size P (upd raw2 used2 0x80) st.blockOffsets
                 st.blockCount false false
             then rd F (pos + (used2 + 1 + t - (used2 + 1)))
             else upd raw2 used2 0x80 (used2 + 1 + t)) = rd F (pos + t)
           rw [if_pos (by omega)]
           congr 1
           omega
         have hfin3 : ∀ X : Nat → Nat,
             (∀ k, k < st.usedSpace → X k = st.raw k) →
             (∀ t, t < fds_get_block_size P (upd raw2 used2 0x80)
                 st.blockOffsets st.blockCount false false →
               X (st.usedSpace + gap + t) = rd F (pos + t)) →
             ∀ j, j < st.blockCount + 1 →
             ∀ t, t < payloadSizeOf P X st.blockOffsets j →
               X (st.blockOffsets j + gapBytesFor P j + t) =
                 rd F (p0 + payloadSum P X st.blockOffsets j + t) := by
           intro X hX hnew j hj t ht
           rcases Nat.lt_or_ge j st.blockCount with hlt | hge
           · have hsz := hsizeSt X hX j (Nat.le_of_lt hlt)
             have ht' : t < payloadSizeOf P st.raw st.blockOffsets j := by
               omega
             rw [hpaySt X hX j (Nat.le_of_lt hlt),
               hX _ (haddr j hlt t ht')]
             exact hPj j hlt t ht'
           · have hjeq : j = st.blockCount := by omega
             rw [hjeq] at ht ⊢
             have hsz := hsizeSt X hX st.blockCount (Nat.le_refl _)
             have htBS : t < fds_get_block_size P (upd raw2 used2 0x80)
                 st.blockOffsets st.blockCount false false := by omega
             rw [hOadd, ← hgap, hnew t htBS,
               hpaySt X hX st.blockCount (Nat.le_refl _)]
             congr 1
             omega
         rw [hbr] at h
         refine hnext _ _ _ _ _ _ _ ⟨?_, ?_, ?_, ?_, ?_⟩ ⟨?_, ?_, ?_⟩ h
         · intro i hi
           have hi' : i < st.blockCount + 1 := hi
           rcases Nat.lt_or_ge i st.blockCount with hlt | hge
           · exact hstab _ (hlowU _ (hlowU _ (hlow4 _) _ _ (by omega))
               _ _ (by omega)) i hlt
           · have hieq : i = st.blockCount := by omega
             rw [hieq]
             exact (hOadd.trans hU).trans
               ((hstabS _ (hlowU _ (hlowU _ (hlow4 _) _ _ (by omega))
                 _ _ (by omega)) st.blockCount (Nat.le_refl _)).symm)
         · exact hinv2 _ (hlowU _ (hlowU _ (hlow4 _) _ _ (by omega))
             _ _ (by omega))
         · dsimp only
           omega
         · dsimp only
           intro k hk
           rw [upd_other _ _ _ _ (by omega), upd_other _ _ _ _ (by omega)]
           show (if used2 + 1 ≤ k ∧ k < used2 + 1 +
               fds_get_block_size P (upd raw2 used2 0x80) st.blockOffsets
                 st.blockCount false false
             then rd F (pos + (k - (used2 + 1)))
             else upd raw2 used2 0x80 k) = 0
           rw [if_neg (by omega)]
           exact hzero3 k (by omega)
         · exact hbup _ _ _ (hbup _ _ _ (hbri _) (hand255 _)) (hand255 _)
         · exact hfin2 _ (hlowU _ (hlowU _ (hlow4 _) _ _ (by omega))
             _ _ (by omega))
         · show pos + fds_get_block_size P (upd raw2 used2 0x80)
             st.blockOffsets st.blockCount false false ≤ F.length
           omega
         · exact hfin3 _ (hlowU _ (hlowU _ (hlow4 _) _ _ (by omega))
             _ _ (by omega)) (hnew6 _ _))

/-- The block-reading loop of `fds_load_side` establishes, at every
exit, the C3 invariant (offsets equation, bounded `used_space`) together
with the payload provenance from the source file. -/
theorem loadLoop_inv (P : FdsParams) (F : List Nat)
    (hFb : ∀ b ∈ F, b < 256)
    (hg1 : 1 ≤ P.firstGapReadBits / 8) (hg2 : 1 ≤ P.nextGapsReadBits / 8) :
    ∀ p0 fuel st pos minB res st' minB' r, LoadInv P st →
      LoadProv P F p0 st pos →
      loadLoop P F fuel st pos minB = some (res, st', minB', r) →
      LoadOut P F p0 res st' := by
  intro p0 fuel
  induction fuel with
  | zero =>
    intro st pos minB res st' minB' r _ _ h
    exact absurd h (by simp [loadLoop])
  | succ fuel ih =>
    intro st pos minB res st' minB' r hInv hProv h
    obtain ⟨hE, hU, hM, hZ, hB⟩ := hInv
    obtain ⟨hPp, hPl, hPj⟩ := hProv
    have hgap1 : 1 ≤ gapBytesFor P st.blockCount := by
      unfold gapBytesFor
      split <;> assumption
    have hoffs1 : ∀ i, i < st.blockCount →
        upd st.blockOffsets st.blockCount st.usedSpace i =
        st.blockOffsets i := fun i hi => upd_other _ _ _ _ (by omega)
    have hstable1 : ∀ m, m ≤ st.blockCount →
        offsSum P st.raw
          (upd st.blockOffsets st.blockCount st.usedSpace) m =
        offsSum P st.raw st.blockOffsets m := by
      apply offsSum_stable P st.raw st.raw st.blockOffsets _
        st.blockCount st.blockCount (fun i hi => hE i hi) hoffs1
        (fun _ _ => rfl) (fun _ _ _ => rfl)
    have hE1 : ∀ i, i < st.blockCount →
        upd st.blockOffsets st.blockCount st.usedSpace i =
        offsSum P st.raw
          (upd st.blockOffsets st.blockCount st.usedSpace) i := by
      intro i hi
      rw [hoffs1 i hi, hstable1 i (Nat.le_of_lt hi)]
      exact hE i hi
    have hpayU : ∀ m, m ≤ st.blockCount →
        payloadSum P st.raw
          (upd st.blockOffsets st.blockCount st.usedSpace) m =
        payloadSum P st.raw st.blockOffsets m :=
      fun m hm => payloadSum_congr_offs P st.raw st.blockOffsets _ m
        (fun i hi => hoffs1 i (by omega))
    have hszU : ∀ j, j < st.blockCount →
        payloadSizeOf P st.raw
          (upd st.blockOffsets st.blockCount st.usedSpace) j =
        payloadSizeOf P st.raw st.blockOffsets j :=
      fun j hj => payloadSizeOf_congr_offs P st.raw st.blockOffsets _ j
        (hoffs1 (j - 1) (by omega))
    have hPjU : ∀ j, j < st.blockCount →
        ∀ t, t < payloadSizeOf P st.raw
          (upd st.blockOffsets st.blockCount st.usedSpace) j →
        st.raw (upd st.blockOffsets st.blockCount st.usedSpace j +
            gapBytesFor P j + t) =
          rd F (p0 + payloadSum P st.raw
            (upd st.blockOffsets st.blockCount st.usedSpace) j + t) := by
      intro j hj t ht
      rw [hszU j hj] at ht
      rw [hoffs1 j hj, hpayU j (Nat.le_of_lt hj)]
      exact hPj j hj t ht
    have hexit1 : ∀ rc : FR, LoadOut P F p0 rc
        { st with
          blockOffsets := upd st.blockOffsets st.blockCount st.usedSpace } := by
      intro rc
      refine ⟨fun i hi => hE1 i hi, hM,
        fun _ => hU.trans (hstable1 st.blockCount (Nat.le_refl _)).symm,
        fun j hj t ht => hPjU j hj t ht, ?_⟩
      show p0 + payloadSum P st.raw
          (upd st.blockOffsets st.blockCount st.usedSpace)
          st.blockCount ≤ F.length
      rw [hpayU st.blockCount (Nat.le_refl _)]
      omega
    simp only [loadLoop] at h
    by_cases hov : st.usedSpace + gapBytesFor P st.blockCount >
        P.maxSideSize
    · rw [if_pos hov] at h
      repeat' split at h
      all_goals
        (simp only [Option.some.injEq, Prod.mk.injEq] at h
         obtain ⟨h1, h2, h3, h4⟩ := h
         subst h1
         subst h2
         exact hexit1 _)
    · rw [if_neg hov] at h
      rw [gapZeroLoop_eq P (gapBytesFor P st.blockCount - 1) st.raw
        st.usedSpace 0 (by omega)] at h
      dsimp only at h
      refine loadIterRest_inv P F (loadLoop P F fuel) _
        (gapBytesFor P st.blockCount) _ _ _ _ _ _ _ _ p0 hFb ?_ hgap1
        ?_ ?_ ?_ ?_ ?_ ?_ ?_ ?_ ?_ ?_ ?_ ih h
      · rfl
      · exact fun k => writeZeros_apply _ _ _ k
      · rfl
      · exact Nat.le_of_not_lt hov
      · exact fun i hi => hE1 i hi
      · exact hU.trans (hstable1 st.blockCount (Nat.le_refl _)).symm
      · exact fun k hk => hZ k hk
      · exact hB
      · exact upd_self _ _ _
      · show pos = p0 + payloadSum P st.raw
          (upd st.blockOffsets st.blockCount st.usedSpace) st.blockCount
        rw [hpayU st.blockCount (Nat.le_refl _)]
        exact hPp
      · exact hPl
      · exact fun j hj t ht => hPjU j hj t ht

/-- **C3** — Block-index invariant, amended: after every `fds_load_side`
exit the offsets equation (`block_offsets[i]` = sum of the prior blocks'
full gap+payload+CRC sizes) holds and `used_space ≤ MAX_SIDE_SIZE`; after
`fds_reset_writing` on a state satisfying the invariant the offsets
equation still holds, but `used_space ≤ MAX_SIDE_SIZE` only outside the
overflow branch — when the recomputed `used_space` exceeds
`MAX_SIDE_SIZE` the source stops the drive (FSM to IDLE) without
restoring `used_space`. -/
theorem block_index_invariant (P : FdsParams) (F : List Nat)
    (side : Nat) (ro : Bool) (stR : Fds)
    (hFb : ∀ b ∈ F, b < 256)
    (hMax : P.maxSideSize < 65536)
    (hg1 : 1 ≤ P.firstGapReadBits / 8) (hg2 : 1 ≤ P.nextGapsReadBits / 8)
    (hRE : offsetsOk P stR)
    (hRU : stR.usedSpace =
      offsSum P stR.raw stR.blockOffsets stR.blockCount)
    (hRM : stR.usedSpace ≤ P.maxSideSize) :
    (∀ res st' m r, fds_load_side P F side ro = some (res, st', m, r) →
      offsetsOk P st' ∧ st'.usedSpace ≤ P.maxSideSize) ∧
    (offsetsOk P (fds_reset_writing P stR) ∧
      ((fds_reset_writing P stR).usedSpace ≤ P.maxSideSize ∨
        (fds_reset_writing P stR).state = .idle)) := by
  constructor
  · intro res st' m r hload
    unfold fds_load_side at hload
    split at hload
    · simp only [Option.some.injEq, Prod.mk.injEq] at hload
      obtain ⟨h1, h2, h3, h4⟩ := hload
      subst h2
      exact ⟨fun i hi => absurd hi (Nat.not_lt_zero i), Nat.zero_le _⟩
    · have hout := loadLoop_inv P F hFb hg1 hg2
        (min ((if F.length % P.romSideSize = P.romHeaderSize
          then P.romHeaderSize else 0) + side * P.romSideSize) F.length)
        _ _ _ _ _ _ _ _
        ⟨fun i hi => absurd hi (Nat.not_lt_zero i), rfl, Nat.zero_le _,
         fun _ _ => rfl, fun _ => (by omega : (0:Nat) < 256)⟩
        ⟨rfl, Nat.min_le_right _ _,
         fun j hj => absurd hj (Nat.not_lt_zero j)⟩
        hload
      exact ⟨hout.1, hout.2.1⟩
  · exact fds_reset_writing_inv P stR hMax hg1 hg2 hRE hRU hRM

/-- **C3 counterexample** — from the reachable two-block `stPastEnd`
state (which satisfies the claim's own invariant, first three conjuncts)
with the write cursor two bytes past `used_space` in the 70-byte `Pc70`
buffer, `fds_reset_writing` appends a block record, recomputes
`used_space = 86 > 70 = MAX_SIDE_SIZE` and keeps that value, refuting the
claimed `used_space ≤ MAX_SIDE_SIZE` (the drive is parked in IDLE
instead). -/
theorem reset_writing_overflow_counterexample :
    offsetsOk Pc70 stPastEnd ∧
    stPastEnd.usedSpace =
      offsSum Pc70 stPastEnd.raw stPastEnd.blockOffsets
        stPastEnd.blockCount ∧
    stPastEnd.usedSpace ≤ Pc70.maxSideSize ∧
    (fds_reset_writing Pc70 stPastEnd).usedSpace = 86 ∧
    Pc70.maxSideSize = 70 ∧
    (fds_reset_writing Pc70 stPastEnd).state = .idle := by
  refine ⟨by unfold offsetsOk; decide, ?_, ?_, ?_, ?_, ?_⟩ <;> decide

/-- A concrete run of the amended invariant: the one-block `stOneBlock`
image inside `Pc`'s buffer satisfies every hypothesis, and
`fds_reset_writing` keeps the offsets equation. -/
theorem block_index_invariant_witness :
    (∀ b ∈ Fc, b < 256) ∧
    offsetsOk Pc stOneBlock ∧
    offsetsOk Pc (fds_reset_writing Pc stOneBlock) := by
  refine ⟨by decide, by unfold offsetsOk; decide, ?_⟩
  exact (block_index_invariant Pc Fc 0 false stOneBlock (by decide)
    (by decide) (by decide) (by decide) (by unfold offsetsOk; decide)
    (by decide) (by decide)).2.1

/-! ## C1: the load/save round trip -/

/-- The block-reading loop never touches the `side` field of the state:
every exit record and every recursive re-entry copies it unchanged. -/
theorem loadLoop_side (P : FdsParams) (F : List Nat) :
    ∀ fuel st pos minB res st' minB' r,
      loadLoop P F fuel st pos minB = some (res, st', minB', r) →
      st'.side = st.side := by
  intro fuel
  induction fuel with
  | zero =>
    intro st pos minB res st' minB' r h
    exact absurd h (by simp [loadLoop])
  | succ fuel ih =>
    intro st pos minB res st' minB' r h
    simp only [loadLoop, loadIterRest] at h
    repeat' split at h
    all_goals
      first
        | exact (ih _ _ _ _ _ _ _ h).trans rfl
        | (simp only [Option.some.injEq, Prod.mk.injEq] at h
           obtain ⟨h1, h2, h3, h4⟩ := h
           subst h2
           rfl)

/-- **C1 (round trip)** — when `fds_load_side` succeeds on a file `F`
and the loaded image, marked dirty, is saved back successfully (not
read-only, IN_PLACE strategy), the save writes a file identical to `F`
byte for byte, so reloading the written file with the same side
reproduces the load outcome exactly: every block's payload bytes and
trailing CRC bytes — indeed the entire image buffer and state — are
identical to those after the first load. -/
theorem load_save_roundtrip (P : FdsParams) (F : List Nat) (side : Nat)
    (st' : Fds) (m : Nat) (r : StopReason)
    (hFb : ∀ b ∈ F, b < 256)
    (hMax : P.maxSideSize < 65536)
    (hg1 : 1 ≤ P.firstGapReadBits / 8) (hg2 : 1 ≤ P.nextGapsReadBits / 8)
    (hHdr : P.romHeaderSize = 16)
    (hload : fds_load_side P F side false = some (.ok, st', m, r))
    (hsave : (fds_save P { st' with changed := true } F).1 = .ok) :
    (fds_save P { st' with changed := true } F).2.2 = F ∧
    fds_load_side P (fds_save P { st' with changed := true } F).2.2 side
      false = some (.ok, st', m, r) := by
  have hload2 := hload
  unfold fds_load_side at hload2
  have hF2 : (fds_save P { st' with changed := true } F).2.2 = F := by
    split at hload2
    · simp only [Option.some.injEq, Prod.mk.injEq] at hload2
      exact absurd hload2.1 (by simp)
    · rename_i hcond
      have hmod : F.length % P.romSideSize = 0 ∨
          F.length % P.romSideSize = 16 := by omega
      have hout := loadLoop_inv P F hFb hg1 hg2
        (min ((if F.length % P.romSideSize = P.romHeaderSize
          then P.romHeaderSize else 0) + side * P.romSideSize) F.length)
        _ _ _ _ _ _ _ _
        ⟨fun i hi => absurd hi (Nat.not_lt_zero i), rfl, Nat.zero_le _,
         fun _ _ => rfl, fun _ => (by omega : (0:Nat) < 256)⟩
        ⟨rfl, Nat.min_le_right _ _,
         fun j hj => absurd hj (Nat.not_lt_zero j)⟩
        hload2
      obtain ⟨hE', hM', hOkEq, hProv', hLen'⟩ := hout
      have hU' := hOkEq rfl
      have hside : st'.side = side :=
        (loadLoop_side P F _ _ _ _ _ _ _ _ hload2).trans rfl
      unfold fds_save at hsave ⊢
      rw [if_neg (by simp)] at hsave ⊢
      split at hsave
      · simp at hsave
      · split at hsave
        · simp at hsave
        · rename_i hro hcrc
          rw [if_neg hro, if_neg hcrc]
          · show saveWriteLoop P st'.raw st'.blockOffsets F
              (F.length % P.romSideSize + st'.side * P.romSideSize) 0
              st'.blockCount = F
            rw [hside]
            by_cases hbc : st'.blockCount = 0
            · rw [hbc]
              rfl
            · have hpos : 1 ≤ payloadSum P st'.raw st'.blockOffsets
                  st'.blockCount := by
                obtain ⟨c, hc⟩ := Nat.exists_eq_succ_of_ne_zero hbc
                rw [hc]
                have h1 := payloadSizeOf_pos P st'.raw st'.blockOffsets c
                show 1 ≤ payloadSum P st'.raw st'.blockOffsets c +
                  payloadSizeOf P st'.raw st'.blockOffsets c
                omega
              have hP0le : (if F.length % P.romSideSize = P.romHeaderSize
                  then P.romHeaderSize else 0) + side * P.romSideSize ≤
                  F.length := by
                by_contra hgt
                have hminr : min ((if F.length % P.romSideSize =
                    P.romHeaderSize then P.romHeaderSize else 0) +
                    side * P.romSideSize) F.length = F.length :=
                  min_eq_right (by omega)
                rw [hminr] at hLen'
                omega
              have hmin : min ((if F.length % P.romSideSize =
                  P.romHeaderSize then P.romHeaderSize else 0) +
                  side * P.romSideSize) F.length =
                  (if F.length % P.romSideSize = P.romHeaderSize
                   then P.romHeaderSize else 0) + side * P.romSideSize :=
                min_eq_left hP0le
              rw [hmin] at hLen'
              have hp : F.length % P.romSideSize + side * P.romSideSize =
                  (if F.length % P.romSideSize = P.romHeaderSize
                   then P.romHeaderSize else 0) + side * P.romSideSize := by
                rcases hmod with h0 | h16
                · rw [h0, hHdr]
                  norm_num
                · rw [h16, hHdr]
                  norm_num
              have hsz : ∀ j, j < st'.blockCount →
                  payloadSizeOf P st'.raw st'.blockOffsets j < 65536 := by
                intro j hj
                have h2 : offsSum P st'.raw st'.blockOffsets (j + 1) ≤
                    offsSum P st'.raw st'.blockOffsets st'.blockCount :=
                  offsSum_mono P st'.raw st'.blockOffsets (j + 1)
                    st'.blockCount (by omega)
                have h3 : offsSum P st'.raw st'.blockOffsets (j + 1) =
                    offsSum P st'.raw st'.blockOffsets j +
                    blockTotalSizeSpec P st'.raw st'.blockOffsets j := rfl
                have h4 : payloadSizeOf P st'.raw st'.blockOffsets j + 2 ≤
                    blockTotalSizeSpec P st'.raw st'.blockOffsets j := by
                  unfold blockTotalSizeSpec
                  omega
                omega
              have hsz' : ∀ j, j < st'.blockCount →
                  fds_get_block_size P st'.raw st'.blockOffsets j false
                    false = payloadSizeOf P st'.raw st'.blockOffsets j := by
                intro j hj
                rw [fds_get_block_size_ff,
                  Nat.mod_eq_of_lt (hsz j hj)]
              have hcs : ∀ t, t ≤ st'.blockCount →
                  codePayloadSumFrom P st'.raw st'.blockOffsets 0 t =
                  payloadSum P st'.raw st'.blockOffsets t := by
                intro t ht
                exact codePayloadSum_eq P st'.raw st'.blockOffsets t
                  (fun j hj => hsz j (by omega))
              apply saveWriteLoop_id P st'.raw st'.blockOffsets F
              · intro t ht u hu
                simp only [Nat.zero_add] at hu ⊢
                rw [hsz' t ht] at hu
                have hpb := hProv' t ht u hu
                rw [hmin] at hpb
                rw [hcs t (Nat.le_of_lt ht)]
                rw [hp]
                exact hpb
              · rw [hcs st'.blockCount (Nat.le_refl _), hp]
                exact hLen'
  exact ⟨hF2, by rw [hF2]; exact hload⟩

set_option maxHeartbeats 8000000 in
/-- A concrete round trip: loading side 0 of the valid `Fc` image
succeeds, marking the loaded image dirty and saving it returns `FR_OK`,
and the file it writes is `Fc` byte for byte. -/
theorem load_save_roundtrip_witness :
    ∃ st' m r, fds_load_side Pc Fc 0 false = some (.ok, st', m, r) ∧
      (fds_save Pc { st' with changed := true } Fc).1 = .ok ∧
      (fds_save Pc { st' with changed := true } Fc).2.2 = Fc := by
  have hobs : loadObs (fds_load_side Pc Fc 0 false) =
      (.ok, 2, 2, .kindMismatch) := by
    simp [loadObs, fds_load_side, loadLoop, loadIterRest, gapZeroLoop,
      signatureOk, readInto, fds_get_block_size, payloadSizeOf,
      gapBytesFor, extractRaw, fds_crc, crcBitUpd, hvcSignature, upd, rd,
      baseSt, Pc, Fc, nat_and_one, nat_and_255, Nat.min_def,
      List.range_succ, List.getD_eq_getElem?_getD]
  have hsobs : dirtySaveCode Pc Fc (fds_load_side Pc Fc 0 false) =
      .ok := by
    simp [dirtySaveCode, fds_save, crcCheckLoop, blockPayloadBytes,
      storedCrcAt, fds_load_side, loadLoop, loadIterRest, gapZeroLoop,
      signatureOk, readInto, fds_get_block_size, payloadSizeOf,
      gapBytesFor, extractRaw, fds_crc, crcBitUpd, hvcSignature, upd, rd,
      baseSt, Pc, Fc, nat_and_one, nat_and_255, Nat.min_def,
      List.range_succ, List.getD_eq_getElem?_getD]
  cases ho : fds_load_side Pc Fc 0 false with
  | none =>
    rw [ho] at hobs
    simp [loadObs] at hobs
  | some v =>
    obtain ⟨res, st', m, r⟩ := v
    rw [ho] at hobs hsobs
    simp only [loadObs, Prod.mk.injEq] at hobs
    simp only [dirtySaveCode] at hsobs
    obtain ⟨hres, hbc2, hm, hr⟩ := hobs
    subst hres
    refine ⟨st', m, r, rfl, hsobs, ?_⟩
    exact (load_save_roundtrip Pc Fc 0 st' m r (by decide) (by decide)
      (by decide) (by decide) (by decide) ho hsobs).1

end Fdsemu
